import Mathlib

/-!
Verification of the readable-hash model-building pipeline.

This file gives a shallow embedding, in Lean 4, of the Python sources under
`src/models/` (chiefly `tokenize.py`, `train_ngram.py`, `train_bigram.py`) and
proves or refutes the frozen specification claims about them.  Words and
tokens are modelled as `List Char`; Python `Counter` objects are modelled as
insertion-ordered association lists; Python `dict` construction is modelled by
an insert-or-overwrite operation; Python `sorted` is modelled by a stable
insertion sort.  Probabilities (Python floats) are idealized as exact
rationals.
-/

namespace ReadableHash

/-! ## Basic string machinery -/

/-- The beginning-of-word boundary marker, `BOS = "^"` in `tokenize.py`. -/
def BOS : Char := '^'

/-- The end-of-word boundary marker, `EOS = "$"` in `tokenize.py`. -/
def EOS : Char := '$'

/-- A character is a lowercase ASCII letter (the alphabet of `extract_words`). -/
def isLowerAlpha (c : Char) : Prop := 'a' ≤ c ∧ c ≤ 'z'

instance (c : Char) : Decidable (isLowerAlpha c) := by
  unfold isLowerAlpha; infer_instance

/-- A word as produced by `extract_words`: nonempty, all lowercase alphabetic. -/
def IsWord (w : List Char) : Prop := w ≠ [] ∧ ∀ c ∈ w, isLowerAlpha c

instance (w : List Char) : Decidable (IsWord w) := by
  unfold IsWord; infer_instance

/-- The last `k` elements of a list (`l[-k:]` in Python when `k ≤ |l|`). -/
def lastN (k : Nat) (l : List α) : List α := l.drop (l.length - k)

/-- The number of occurrences of `k` in `l` (explicit decidable-equality
count, used to state counter characterizations). -/
def countOcc [DecidableEq κ] (k : κ) (l : List κ) : Nat :=
  (l.filter (fun x => x = k)).length

/-! ## Stable insertion sort, modelling Python `sorted` -/

/-- Insert `x` into `l` in front of the first element `y` with `le x y`.
Modelling Python stable sorting: an element inserted from the left of the
original list lands before all elements comparing equal to it. -/
def insertSorted (le : α → α → Bool) (x : α) : List α → List α
  | [] => [x]
  | y :: ys => if le x y then x :: y :: ys else y :: insertSorted le x ys

/-- Stable insertion sort by the boolean comparison `le`; models `sorted`. -/
def insSortBy (le : α → α → Bool) : List α → List α
  | [] => []
  | x :: xs => insertSorted le x (insSortBy le xs)

/-! ## Counters (Python `collections.Counter`) -/

/-- A Python `Counter` over keys `κ`: an insertion-ordered association list.
`c[k] += 1` either increments an existing entry in place or appends `(k, 1)`. -/
abbrev Counter (κ : Type) := List (κ × Nat)

/-- The keys of a counter, in insertion order. -/
def Counter.keys (c : Counter κ) : List κ := c.map Prod.fst

/-- Python `c[k] += 1` on a `Counter`. -/
def Counter.bump [DecidableEq κ] (c : Counter κ) (k : κ) : Counter κ :=
  if k ∈ c.keys then
    c.map (fun p => if p.1 = k then (p.1, p.2 + 1) else p)
  else
    c ++ [(k, 1)]

/-- Python `c[k]` on a `Counter` (0 when the key is absent). -/
def Counter.count [DecidableEq κ] (c : Counter κ) (k : κ) : Nat :=
  match c.find? (fun p => p.1 = k) with
  | some p => p.2
  | none => 0

/-- Python `Counter.most_common(n)`: entries sorted by descending count,
ties kept in insertion order (the sort is stable), truncated to `n`. -/
def Counter.mostCommon [DecidableEq κ] (n : Nat) (c : Counter κ) : Counter κ :=
  (insSortBy (fun a b => b.2 ≤ a.2) c).take n

/-! ## The tokenizer (`tokenize.py`, `tokenize_word`) -/

/-- The candidate token forms tried at one scan length, in the textual order
of the four `if` blocks of `tokenize_word` (lines 110-134 of `tokenize.py`):
whole-word form, beginning form, end form, plain form.  `rem` is the suffix
of the word starting at the current position, so `isBeg` models
`position == 0` and `len = rem.length` models `position + length == len(word)`. -/
def candidateForms (isBeg : Bool) (rem : List Char) (len : Nat) : List (List Char) :=
  let s := rem.take len
  (if isBeg ∧ len = rem.length then [BOS :: (s ++ [EOS])] else []) ++
  (if isBeg then [BOS :: s] else []) ++
  (if len = rem.length then [s ++ [EOS]] else []) ++
  [s]

/-- Scan lengths `len, len-1, ..., 1` (the Python loop
`for length in range(min(6, len(word) - position), 0, -1)`), returning the
first vocabulary hit together with the length it was found at. -/
def scanLengths (vocab : List Char → Bool) (isBeg : Bool) (rem : List Char) :
    Nat → Option (List Char × Nat)
  | 0 => none
  | len + 1 =>
    match (candidateForms isBeg rem (len + 1)).find? vocab with
    | some tok => some (tok, len + 1)
    | none => scanLengths vocab isBeg rem len

/-- The candidate search of one iteration of the `tokenize_word` loop. -/
def findMatch (vocab : List Char → Bool) (isBeg : Bool) (rem : List Char) :
    Option (List Char × Nat) :=
  scanLengths vocab isBeg rem (min 6 rem.length)

/-- The single-character fallback of `tokenize_word` (lines 136-143):
`position == 0` gives a beginning-marked character, the last position gives an
end-marked character, otherwise the bare character. -/
def fallbackToken (isBeg : Bool) (rem : List Char) : List Char :=
  if isBeg then BOS :: rem.take 1
  else if rem.length = 1 then rem.take 1 ++ [EOS]
  else rem.take 1

/-- The `while position < len(word)` loop of `tokenize_word`, driven by fuel;
`tokenize_word` supplies fuel `word.length`, which suffices because each
iteration consumes at least one character. -/
def tokenizeGo (vocab : List Char → Bool) : Nat → Bool → List Char → List (List Char)
  | 0, _, _ => []
  | fuel + 1, isBeg, rem =>
    match rem with
    | [] => []
    | _ :: _ =>
      let step :=
        match findMatch vocab isBeg rem with
        | some tl => tl
        | none => (fallbackToken isBeg rem, 1)
      step.1 :: tokenizeGo vocab fuel false (rem.drop step.2)

/-- `tokenize_word(word, vocab)` from `tokenize.py`: greedy longest-match
segmentation with position awareness.  The vocabulary is abstracted to its
membership test, which is all `tokenize_word` uses of it. -/
def tokenize_word (word : List Char) (vocab : List Char → Bool) : List (List Char) :=
  tokenizeGo vocab word.length true word

/-- Strip a leading `^` marker, when present. -/
def dropLeadBOS (t : List Char) : List Char :=
  if t.head? = some BOS then t.tail else t

/-- Strip a trailing `$` marker, when present. -/
def dropTrailEOS (t : List Char) : List Char :=
  if t.getLast? = some EOS then t.dropLast else t

/-- Strip the leading `^` marker (if present) and the trailing `$` marker
(if present) from a token, recovering the surface substring it consumed. -/
def stripToken (t : List Char) : List Char :=
  dropTrailEOS (dropLeadBOS t)

/-- Spec-side rendering of one scan length of the (amended) C4 claim: at each
length, the search accepts the whole-word form when at the first character and
the substring spans the word, else the beginning form when at the first
character, else the end form when the substring reaches the last character,
else the plain form; `none` when no applicable form is in the vocabulary. -/
def priorityPick (vocab : List Char → Bool) (isBeg : Bool) (rem : List Char)
    (len : Nat) : Option (List Char) :=
  let s := rem.take len
  if isBeg ∧ len = rem.length ∧ vocab (BOS :: (s ++ [EOS])) then
    some (BOS :: (s ++ [EOS]))
  else if isBeg ∧ vocab (BOS :: s) then
    some (BOS :: s)
  else if len = rem.length ∧ vocab (s ++ [EOS]) then
    some (s ++ [EOS])
  else if vocab s then
    some s
  else
    none

/-- Formalization of claim C4's scoping assertion: at the first character of a
word the candidate search considers only whole-word and beginning-marked
forms; were that so, every successful search at the beginning position would
return a token led by the `^` marker (as both such forms are). -/
def beginningScopedOnly : Prop :=
  ∀ (vocab : List Char → Bool) (rem tok : List Char) (len : Nat),
    findMatch vocab true rem = some (tok, len) → tok.head? = some BOS

/-! ## Positional n-gram counting (`tokenize.py`, `collect_ngram_counts`) -/

/-- The first inner loop of `collect_ngram_counts` (lines 46-51): for each
`ngram_len` in `range(1, min(max_ngram + 1, len(word) + 1))`, bump the
beginning counter at `"^" + word[:ngram_len]` and the end counter at
`word[-ngram_len:] + "$"`. -/
def bumpBeginEnd (w : List Char) (be : Counter (List Char) × Counter (List Char)) :
    Counter (List Char) × Counter (List Char) :=
  (List.range' 1 (min 6 w.length)).foldl
    (fun p l => (p.1.bump (BOS :: w.take l), p.2.bump (lastN l w ++ [EOS]))) be

/-- The second inner loop of `collect_ngram_counts` (lines 53-57): for each
interior `start_pos` and each length whose substring stops short of the final
character, bump the middle counter at `word[start_pos : start_pos + ngram_len]`. -/
def bumpMiddle (w : List Char) (m : Counter (List Char)) : Counter (List Char) :=
  (List.range' 1 (w.length - 1 - 1)).foldl
    (fun c start =>
      (List.range' 1 (min 7 (w.length - start) - 1)).foldl
        (fun c2 l =>
          if start + l < w.length then c2.bump ((w.drop start).take l) else c2)
        c)
    m

/-- `collect_ngram_counts(words)` from `tokenize.py`: the beginning, end and
middle frequency counters, accumulated over the word list (words of length 0
are skipped). -/
def collect_ngram_counts (words : List (List Char)) :
    Counter (List Char) × Counter (List Char) × Counter (List Char) :=
  words.foldl
    (fun acc w =>
      if w.length = 0 then acc
      else
        let be := bumpBeginEnd w (acc.1, acc.2.1)
        (be.1, be.2, bumpMiddle w acc.2.2))
    ([], [], [])

/-- The beginning candidates one word contributes, in loop order: the marked
prefixes `"^" + word[:l]` for `l = 1 .. min 6 |word|`. -/
def beginCandidates (w : List Char) : List (List Char) :=
  (List.range' 1 (min 6 w.length)).map (fun l => BOS :: w.take l)

/-- The end candidates one word contributes, in loop order: the marked
suffixes `word[-l:] + "$"` for `l = 1 .. min 6 |word|`. -/
def endCandidates (w : List Char) : List (List Char) :=
  (List.range' 1 (min 6 w.length)).map (fun l => lastN l w ++ [EOS])

/-- Formalization of claim C5's whole-word assertion: for every single-word
corpus whose word is short enough for the whole word to be scanned (length at
most 6), the beginning counter records a candidate carrying both boundary
markers for the full word. -/
def recordsWholeWordCandidate : Prop :=
  ∀ w : List Char, IsWord w → w.length ≤ 6 →
    0 < ((collect_ngram_counts [w]).1).count (BOS :: (w ++ [EOS]))

/-- Well-formedness of the three positional counters produced by
`collect_ngram_counts` on a lowercase corpus: beginning keys are marker-led
nonempty lowercase strings, end keys are marker-trailed, middle keys are bare
lowercase, and each counter has duplicate-free keys. -/
def countersInv
    (bem : Counter (List Char) × Counter (List Char) × Counter (List Char)) : Prop :=
  (∀ k ∈ bem.1.keys, ∃ s, k = BOS :: s ∧ s ≠ [] ∧ ∀ c ∈ s, isLowerAlpha c) ∧
  (∀ k ∈ bem.2.1.keys, ∃ s, k = s ++ [EOS] ∧ s ≠ [] ∧ ∀ c ∈ s, isLowerAlpha c) ∧
  (∀ k ∈ bem.2.2.keys, k ≠ [] ∧ ∀ c ∈ k, isLowerAlpha c) ∧
  bem.1.keys.Nodup ∧ bem.2.1.keys.Nodup ∧ bem.2.2.keys.Nodup

/-! ## Vocabulary construction (`tokenize.py`, `build_vocabulary`) -/

/-- The ASCII character of the decimal digit `d`. -/
def digitChar (d : Nat) : Char := Char.ofNat (48 + d)

/-- Fuel-driven decimal rendering (most significant digit first). -/
def natDigitsGo : Nat → Nat → List Char
  | 0, _ => []
  | fuel + 1, n =>
    if n < 10 then [digitChar n]
    else natDigitsGo fuel (n / 10) ++ [digitChar (n % 10)]

/-- The decimal rendering of `n`, as Python `str(n)` / f-string formatting
produces it (no leading zeros, `0` written as `"0"`). -/
def natDigits (n : Nat) : List Char := natDigitsGo (n + 1) n

/-- The numeric value of a digit string (left fold), used to show that
`natDigits` is injective. -/
def digitsVal (ds : List Char) : Nat :=
  ds.foldl (fun a c => a * 10 + (c.toNat - 48)) 0

/-- The placeholder label `f"[UNUSED_BEG_{idx}]"` of `build_vocabulary`. -/
def phBeg (idx : Nat) : List Char :=
  '[' :: 'U' :: 'N' :: 'U' :: 'S' :: 'E' :: 'D' :: '_' :: 'B' :: 'E' :: 'G' :: '_' ::
    (natDigits idx ++ [']'])

/-- The placeholder label `f"[UNUSED_END_{idx}]"` of `build_vocabulary`. -/
def phEnd (idx : Nat) : List Char :=
  '[' :: 'U' :: 'N' :: 'U' :: 'S' :: 'E' :: 'D' :: '_' :: 'E' :: 'N' :: 'D' :: '_' ::
    (natDigits idx ++ [']'])

/-- The placeholder label `f"[UNUSED_MID_{idx}]"` of `build_vocabulary`. -/
def phMid (idx : Nat) : List Char :=
  '[' :: 'U' :: 'N' :: 'U' :: 'S' :: 'E' :: 'D' :: '_' :: 'M' :: 'I' :: 'D' :: '_' ::
    (natDigits idx ++ [']'])

/-- The labels assigned to one id band by `build_vocabulary`, in id order:
the keys of `most_common(capacity)` followed by placeholder labels for the
indices from the number of real candidates up to the capacity. -/
def bandNames (c : Counter (List Char)) (cap : Nat) (ph : Nat → List Char) :
    List (List Char) :=
  let top := (c.mostCommon cap).keys
  top ++ (List.range' top.length (cap - top.length)).map ph

/-- Python `d[k] = v` on a `dict`: overwrite in place when the key exists,
append otherwise. -/
def pyDictInsert (d : List (List Char × Nat)) (kv : List Char × Nat) :
    List (List Char × Nat) :=
  if kv.1 ∈ d.map Prod.fst then
    d.map (fun p => if p.1 = kv.1 then (p.1, kv.2) else p)
  else d ++ [kv]

/-- A Python `dict` built by successive assignments, in order. -/
def pyDictOf (l : List (List Char × Nat)) : List (List Char × Nat) :=
  l.foldl pyDictInsert []

/-- Pair each element of a list with consecutive ids starting at `i`. -/
def withIds : Nat → List α → List (α × Nat)
  | _, [] => []
  | i, a :: l => (a, i) :: withIds (i + 1) l

/-- `build_vocabulary(beginning_counts, end_counts, middle_counts)` from
`tokenize.py`: a dict assigning ids 0-255 to the beginning band, 256-511 to
the end band and 512-1023 to the middle band, real candidates first (by
descending frequency), placeholders after. -/
def build_vocabulary (b e m : Counter (List Char)) : List (List Char × Nat) :=
  pyDictOf
    (withIds 0 (bandNames b 256 phBeg) ++
      withIds 256 (bandNames e 256 phEnd) ++
      withIds 512 (bandNames m 512 phMid))

/-- The vocabulary `main()` trains from a word list:
`build_vocabulary(*collect_ngram_counts(words))`. -/
def trainedVocabulary (words : List (List Char)) : List (List Char × Nat) :=
  build_vocabulary (collect_ngram_counts words).1 (collect_ngram_counts words).2.1
    (collect_ngram_counts words).2.2

/-- The id band a label belongs to, judged from its shape alone: `0` for
beginning labels (marker-led or `BEG` placeholders), `1` for end labels
(marker-trailed or `END` placeholders), `2` for middle labels (bare lowercase
or `MID` placeholders).  Used to show the three bands never collide. -/
def bandOf (t : List Char) : Nat :=
  if t.head? = some BOS then 0
  else if t.head? = some '[' then
    match t[8]? with
    | some 'B' => 0
    | some 'E' => 1
    | some 'M' => 2
    | _ => 3
  else if t.getLast? = some EOS then 1
  else 2

/-! ## Bigram-model assembly (`tokenize.py`, `main`, lines 222-382) -/

/-- A token label. -/
abbrev Tok := List Char

/-- Lexicographic comparison on sort keys `(ℚ value, tie-break rank)`, as
Python compares the key tuples produced by the `key=` lambdas. -/
def lexLeQ (a b : ℚ × Nat) : Bool :=
  decide (a.1 < b.1 ∨ (a.1 = b.1 ∧ a.2 ≤ b.2))

/-- A two-level counter, modelling `defaultdict(Counter)`. -/
abbrev NestedCounter := List (Tok × Counter Tok)

/-- `counts[k1][k2] += 1` on a `defaultdict(Counter)`: the outer entry is
created (appended) on first access. -/
def NestedCounter.bump2 (nc : NestedCounter) (k1 k2 : Tok) : NestedCounter :=
  if k1 ∈ nc.map Prod.fst then
    nc.map (fun p => if p.1 = k1 then (p.1, p.2.bump k2) else p)
  else nc ++ [(k1, Counter.bump [] k2)]

/-- `counts.get(k, Counter())` on the outer dict. -/
def NestedCounter.getC (nc : NestedCounter) (k : Tok) : Counter Tok :=
  match nc.find? (fun p => p.1 = k) with
  | some p => p.2
  | none => []

/-- The grand total `sum(sum(c.values()) for c in counts.values())`. -/
def NestedCounter.total (nc : NestedCounter) : Nat :=
  (nc.map (fun p => ((p.2.map Prod.snd).sum))).sum

/-- `get_beginning_bigram(tokens)` from `tokenize.py`: the first two tokens,
only when there are at least two and the second is not an end token. -/
def get_beginning_bigram (tokens : List Tok) : Option (Tok × Tok) :=
  match tokens with
  | t0 :: t1 :: _ => if t1.getLast? = some EOS then none else some (t0, t1)
  | _ => none

/-- `get_beginning_end_bigram(tokens)` from `tokenize.py`: the two tokens of
an exactly-two-token word whose second token is an end token. -/
def get_beginning_end_bigram (tokens : List Tok) : Option (Tok × Tok) :=
  match tokens with
  | [t0, t1] => if t1.getLast? = some EOS then some (t0, t1) else none
  | _ => none

/-- Membership test of the vocabulary dict, as `tokenize_word` uses it. -/
def vocabMem (vocab : List (Tok × Nat)) : Tok → Bool :=
  fun t => decide (t ∈ vocab.map Prod.fst)

/-- The accumulated statistics of the counting loop of `main` (lines 223-250). -/
structure Tally where
  beginningNext : NestedCounter
  beginningEnd : NestedCounter
  fourGram : Counter (Tok × Tok × Tok × Tok)
  fourA : Counter Tok
  fourAB : Counter (Tok × Tok)
  fourABC : Counter (Tok × Tok × Tok)

/-- The empty tally. -/
def Tally.init : Tally := ⟨[], [], [], [], [], []⟩

/-- One word's contribution to the tally (the body of the loop at
lines 230-250 of `tokenize.py`). -/
def tallyWord (vocab : List (Tok × Nat)) (st : Tally) (word : List Char) : Tally :=
  let tokens := tokenize_word word (vocabMem vocab)
  let st1 :=
    match get_beginning_bigram tokens with
    | some fs => { st with beginningNext := st.beginningNext.bump2 fs.1 fs.2 }
    | none => st
  let st2 :=
    match get_beginning_end_bigram tokens with
    | some fe => { st1 with beginningEnd := st1.beginningEnd.bump2 fe.1 fe.2 }
    | none => st1
  let middle := (tokens.drop 1).dropLast
  (List.range (middle.length - 3)).foldl
    (fun st3 index =>
      let a := middle.getD index []
      let b := middle.getD (index + 1) []
      let c := middle.getD (index + 2) []
      let d := middle.getD (index + 3) []
      { st3 with
        fourGram := st3.fourGram.bump (a, b, c, d)
        fourA := st3.fourA.bump a
        fourAB := st3.fourAB.bump (a, b)
        fourABC := st3.fourABC.bump (a, b, c) })
    st2

/-- The rank of a token in the id-sorted vocabulary
(`token_rank.get(token, 10**9)` in `main`). -/
def tokenRank (vocab : List (Tok × Nat)) (t : Tok) : Nat :=
  let order := (insSortBy (fun a b => decide (a.2 ≤ b.2)) vocab).map Prod.fst
  match order.findIdx? (fun x => x = t) with
  | some i => i
  | none => 10 ^ 9

/-- The sort key comparison of the `ordered_seconds` comprehension
(lines 297-303): keys are `(-(count / first_total) if first_total > 0 else
0.0, rank)` compared lexicographically. -/
def secondsLe (rank : Tok → Nat) (T : Nat) (a b : Tok × Nat) : Bool :=
  lexLeQ ((if 0 < T then -((a.2 : ℚ) / (T : ℚ)) else 0), rank a.1)
    ((if 0 < T then -((b.2 : ℚ) / (T : ℚ)) else 0), rank b.1)

/-- One `[second, count, probability]` entry of `ordered_seconds`. -/
def secondsEntry (T : Nat) (p : Tok × Nat) : Tok × Nat × ℚ :=
  (p.1, p.2, if 0 < T then (p.2 : ℚ) / (T : ℚ) else 0)

/-- The ordered successor list of one context (the `ordered_seconds` /
`ordered_ends` comprehension of `main`, lines 291-304): entries
`(second, count, probability)` sorted by descending probability with the
vocabulary rank as tie-break. -/
def orderedSeconds (rank : Tok → Nat) (seconds : Counter Tok) :
    List (Tok × Nat × ℚ) :=
  let T := (seconds.map Prod.snd).sum
  (insSortBy (secondsLe rank T) seconds).map (secondsEntry T)

/-- One of the two context-model lists of `main` (lines 283-334): an entry
per beginning token, carrying the context probability and its ordered
successor list, sorted by descending context probability with rank
tie-break. -/
def beginningModel (rank : Tok → Nat) (beginningTokens : List Tok)
    (counts : NestedCounter) : List (Tok × ℚ × List (Tok × Nat × ℚ)) :=
  let total := counts.total
  insSortBy
    (fun a b => lexLeQ (-(a.2.1), rank a.1) (-(b.2.1), rank b.1))
    (beginningTokens.map (fun first =>
      let seconds := counts.getC first
      let firstTotal := (seconds.map Prod.snd).sum
      (first, (if 0 < total then (firstTotal : ℚ) / (total : ℚ) else 0),
        orderedSeconds rank seconds)))

/-- The innermost (`d_entries`) level of the four-gram model (lines 350-360). -/
def dEntriesFor (rank : Tok → Nat) (abcdC : Counter (Tok × Tok × Tok × Tok))
    (a b c : Tok) (abcCount : Nat) : List (Tok × Nat × ℚ) :=
  insSortBy
    (fun x y => lexLeQ (-(x.2.2), rank x.1) (-(y.2.2), rank y.1))
    ((abcdC.filter (fun q => q.1.1 = a ∧ q.1.2.1 = b ∧ q.1.2.2.1 = c)).map
      (fun q => (q.1.2.2.2, q.2,
        if 0 < abcCount then (q.2 : ℚ) / (abcCount : ℚ) else 0)))

/-- The `c_entries` level of the four-gram model (lines 345-365): contexts
whose `d_entries` have at least two members survive. -/
def cEntriesFor (rank : Tok → Nat) (abcC : Counter (Tok × Tok × Tok))
    (abcdC : Counter (Tok × Tok × Tok × Tok)) (a b : Tok) (abCount : Nat) :
    List (Tok × Nat × ℚ × List (Tok × Nat × ℚ)) :=
  insSortBy
    (fun x y => lexLeQ (-(x.2.2.1), rank x.1) (-(y.2.2.1), rank y.1))
    ((abcC.filter (fun q => q.1.1 = a ∧ q.1.2.1 = b)).filterMap (fun q =>
      let c := q.1.2.2
      let ds := dEntriesFor rank abcdC a b c q.2
      if 2 ≤ ds.length then
        some (c, q.2, (if 0 < abCount then (q.2 : ℚ) / (abCount : ℚ) else 0), ds)
      else none))

/-- The `b_entries` level of the four-gram model (lines 340-371). -/
def bEntriesFor (rank : Tok → Nat) (abC : Counter (Tok × Tok))
    (abcC : Counter (Tok × Tok × Tok)) (abcdC : Counter (Tok × Tok × Tok × Tok))
    (a : Tok) (aCount : Nat) :
    List (Tok × Nat × ℚ × List (Tok × Nat × ℚ × List (Tok × Nat × ℚ))) :=
  insSortBy
    (fun x y => lexLeQ (-(x.2.2.1), rank x.1) (-(y.2.2.1), rank y.1))
    ((abC.filter (fun q => q.1.1 = a)).filterMap (fun q =>
      let b := q.1.2
      let cs := cEntriesFor rank abcC abcdC a b q.2
      if 2 ≤ cs.length then
        some (b, q.2, (if 0 < aCount then (q.2 : ℚ) / (aCount : ℚ) else 0), cs)
      else none))

/-- The four-gram model of `main` (lines 336-375). -/
def fourGramModel (rank : Tok → Nat) (aC : Counter Tok)
    (abC : Counter (Tok × Tok)) (abcC : Counter (Tok × Tok × Tok))
    (abcdC : Counter (Tok × Tok × Tok × Tok)) :
    List (Tok × Nat × ℚ ×
      List (Tok × Nat × ℚ × List (Tok × Nat × ℚ × List (Tok × Nat × ℚ)))) :=
  let total := (abcdC.map Prod.snd).sum
  insSortBy
    (fun x y => lexLeQ (-(x.2.2.1), rank x.1) (-(y.2.2.1), rank y.1))
    (aC.filterMap (fun p =>
      let a := p.1
      let bs := bEntriesFor rank abC abcC abcdC a p.2
      if 2 ≤ bs.length then
        some (a, p.2, (if 0 < total then (p.2 : ℚ) / (total : ℚ) else 0), bs)
      else none))

/-- The persisted output of `tokenize.py`'s `main` on a word list, with file
input/output stripped away: the tokenizer data (vocabulary plus id-to-token
map) and, unless the 256-entry sanity check fails, the model data (word
count, beginning-next model, beginning-end model, four-gram model). -/
def trainPipeline (words : List (List Char)) :
    (List (Tok × Nat)) × (List (Nat × Tok)) ×
      Option (Nat × (List (Tok × ℚ × List (Tok × Nat × ℚ))) ×
        (List (Tok × ℚ × List (Tok × Nat × ℚ))) ×
        (List (Tok × Nat × ℚ ×
          List (Tok × Nat × ℚ × List (Tok × Nat × ℚ × List (Tok × Nat × ℚ)))))) :=
  let vocab := trainedVocabulary words
  let idToToken := vocab.map (fun p => (p.2, p.1))
  let tally := words.foldl (tallyWord vocab) Tally.init
  let rank := tokenRank vocab
  let vocabItems := insSortBy (fun a b => decide (a.2 ≤ b.2)) vocab
  let beginningTokens := (vocabItems.filter (fun p => p.2 < 256)).map Prod.fst
  let beginningNextModel := beginningModel rank beginningTokens tally.beginningNext
  let beginningEndModel := beginningModel rank beginningTokens tally.beginningEnd
  let fourModel := fourGramModel rank tally.fourA tally.fourAB tally.fourABC tally.fourGram
  let modelData :=
    if beginningNextModel.length = 256 then
      some (words.length, beginningNextModel, beginningEndModel, fourModel)
    else none
  (vocab, idToToken, modelData)

/-! ## N-gram and bigram trainers (`train_ngram.py`, `train_bigram.py`) -/

/-- The ways `train_ngram` / `train_bigram` raise `ValueError`. -/
inductive TrainErr where
  | nAtLeastOne : TrainErr
  | missingStartEnd : TrainErr
  | cannotStartWord : Tok → TrainErr
  | mustBeContinuation : Tok → TrainErr
deriving DecidableEq

/-- The start sentinel string `"<s>"`. -/
def startTokStr : Tok := ['<', 's', '>']

/-- `tok.startswith("##")`. -/
def hasHashHash (t : Tok) : Bool := decide (t.take 2 = ['#', '#'])

/-- `tok.endswith("</w>")`. -/
def hasEndOfWordSuffix (t : Tok) : Bool := decide (lastN 4 t = ['<', '/', 'w', '>'])

/-- The continuation-token validation loop shared verbatim by
`train_ngram.py` (lines 67-75) and `train_bigram.py` (lines 62-70); `prev`
starts as `"<s>"`.  Returns the first error raised, if any. -/
def validateTokens : Tok → List Tok → Option TrainErr
  | _, [] => none
  | prev, tok :: rest =>
    if hasHashHash tok then
      if prev = startTokStr ∨ hasEndOfWordSuffix prev then
        some (.cannotStartWord tok)
      else validateTokens tok rest
    else
      if prev ≠ startTokStr ∧ ¬ hasEndOfWordSuffix prev = true then
        some (.mustBeContinuation tok)
      else validateTokens tok rest

/-- `counts[k1][k2] += 1` on a generic `defaultdict(Counter)`. -/
def nbump [DecidableEq κ] [DecidableEq κ2] (nc : List (κ × Counter κ2))
    (k1 : κ) (k2 : κ2) : List (κ × Counter κ2) :=
  if k1 ∈ nc.map Prod.fst then
    nc.map (fun p => if p.1 = k1 then (p.1, p.2.bump k2) else p)
  else nc ++ [(k1, Counter.bump [] k2)]

/-- `tokens = [start_id] * (n - 1) + token_ids + [end_id]` of `train_ngram`. -/
def ngramWrapped (n : Nat) (s e : Nat) (ids : List Nat) : List Nat :=
  List.replicate (n - 1) s ++ ids ++ [e]

/-- The (context, successor) pairs counted for one line by `train_ngram`
(lines 77-82): for `i` in `range(len(tokens) - n + 1)`, the context
`tokens[i : i + n - 1]` and the successor `tokens[i + n - 1]`. -/
def ngramPairs (n s e : Nat) (ids : List Nat) : List (List Nat × Nat) :=
  let tokens := ngramWrapped n s e ids
  (List.range (tokens.length - n + 1)).map
    (fun i => ((tokens.drop i).take (n - 1), tokens.getD (i + n - 1) 0))

/-- The claim's reading of the same counting step: for every position `i` of
the wrapped token sequence `ids ++ [end]`, the context is the `n - 1` tokens
immediately preceding position `i`, left-padded with the start sentinel for
positions before the sequence start. -/
def ngramPairsSpec (n s e : Nat) (ids : List Nat) : List (List Nat × Nat) :=
  let w := ids ++ [e]
  (List.range w.length).map
    (fun i => (lastN (n - 1) (List.replicate (n - 1) s ++ w.take i), w.getD i 0))

/-- The per-line counting accumulator of `train_ngram`: the context/successor
counters and the per-context totals. -/
abbrev NgramAcc := List (List Nat × Counter Nat) × Counter (List Nat)

/-- The file/line loop of `train_ngram` (lines 58-82) over pre-tokenized
lines: skip empty encodings, validate, then count all n-gram pairs. -/
def ngramCountLines (n s e : Nat) :
    List (List Nat × List Tok) → NgramAcc → Except TrainErr NgramAcc
  | [], acc => .ok acc
  | (ids, strs) :: rest, acc =>
    if ids = [] then ngramCountLines n s e rest acc
    else
      match validateTokens startTokStr strs with
      | some err => .error err
      | none =>
        ngramCountLines n s e rest
          ((ngramPairs n s e ids).foldl
            (fun a p => (nbump a.1 p.1 p.2, a.2.bump p.1)) acc)

/-- `" ".join(map(str, context))`. -/
def ctxKeyStr (ctx : List Nat) : Tok := List.intercalate [' '] (ctx.map natDigits)

/-- `train_ngram(input_files, n, tokenizer, ...)` from `train_ngram.py`, with
file input/output stripped away: the tokenizer is abstracted to its optional
`<s>`/`</s>` ids and the pre-tokenized lines (id list and token strings per
line); the result is the model written as JSON — context key strings mapping
to successor-id keys with their probabilities — or the `ValueError` raised. -/
def trainNgram (n : Int) (startId? endId? : Option Nat)
    (lines : List (List Nat × List Tok)) :
    Except TrainErr (List (Tok × List (Tok × ℚ))) :=
  if n < 1 then .error .nAtLeastOne
  else
    match startId?, endId? with
    | some s, some e =>
      match ngramCountLines n.toNat s e lines ([], []) with
      | .error err => .error err
      | .ok acc =>
        .ok (acc.1.map (fun p => (ctxKeyStr p.1,
          p.2.map (fun q => (natDigits q.1, (q.2 : ℚ) / ((acc.2.count p.1 : ℚ)))))))
    | _, _ => .error .missingStartEnd

/-- `tokens = [start_id] + token_ids + [end_id]` then
`zip(tokens, tokens[1:])` of `train_bigram` (lines 72-73). -/
def bigramPairs (s e : Nat) (ids : List Nat) : List (Nat × Nat) :=
  let tokens := [s] ++ ids ++ [e]
  tokens.zip tokens.tail

/-- The per-line counting accumulator of `train_bigram`. -/
abbrev BigramAcc := List (Nat × Counter Nat) × Counter Nat

/-- The file/line loop of `train_bigram` (lines 53-75). -/
def bigramCountLines (s e : Nat) :
    List (List Nat × List Tok) → BigramAcc → Except TrainErr BigramAcc
  | [], acc => .ok acc
  | (ids, strs) :: rest, acc =>
    if ids = [] then bigramCountLines s e rest acc
    else
      match validateTokens startTokStr strs with
      | some err => .error err
      | none =>
        bigramCountLines s e rest
          ((bigramPairs s e ids).foldl
            (fun a p => (nbump a.1 p.1 p.2, a.2.bump p.1)) acc)

/-- `train_bigram(input_files, tokenizer, ...)` from `train_bigram.py`, with
file input/output stripped away exactly as in `trainNgram`. -/
def trainBigram (startId? endId? : Option Nat)
    (lines : List (List Nat × List Tok)) :
    Except TrainErr (List (Tok × List (Tok × ℚ))) :=
  match startId?, endId? with
  | some s, some e =>
    match bigramCountLines s e lines ([], []) with
    | .error err => .error err
    | .ok acc =>
      .ok (acc.1.map (fun p => (natDigits p.1,
        p.2.map (fun q => (natDigits q.1, (q.2 : ℚ) / ((acc.2.count p.1 : ℚ)))))))
  | _, _ => .error .missingStartEnd

/-! ## Quantizer (spec-modelled) -/

/-- Lexicographic comparison on three-component sort keys. -/
def lexLe3 (a b : ℚ × ℚ × Nat) : Bool :=
  decide (a.1 < b.1 ∨ (a.1 = b.1 ∧
    (a.2.1 < b.2.1 ∨ (a.2.1 = b.2.1 ∧ a.2.2 ≤ b.2.2))))

/-- Modelled from the spec: the Quantizer of §4.5 belongs to this
repository's model-building core but its source is not under `src/`; §4.5
step 3 — sort successors by descending adjusted weight, ties broken by the
fixed vocabulary rank.  A successor is a token id paired with its adjusted
weight `(rawCount + smoothing_alpha) ^ (1 / temperature)`, which this model
takes as a given rational. -/
def qSorted (rank : Nat → Nat) (succs : List (Nat × ℚ)) : List (Nat × ℚ) :=
  insSortBy (fun a b => lexLeQ (-a.2, rank a.1) (-b.2, rank b.1)) succs

/-- Modelled from the spec: §4.5 step 4, the floor allocation — when there
are at least `max_value` successors each gets
`floor(adjusted * max_value / total)`; otherwise each gets a floor of 1 plus
`floor(adjusted * (max_value - successorCount) / total)`.  Each entry keeps
its successor, its allocated floor, and the fractional remainder truncated by
the floor. -/
def qBase (rank : Nat → Nat) (maxValue : Nat) (succs : List (Nat × ℚ)) :
    List ((Nat × ℚ) × Nat × ℚ) :=
  let total : ℚ := (succs.map Prod.snd).sum
  if maxValue ≤ (qSorted rank succs).length then
    (qSorted rank succs).map (fun p =>
      (p, (Int.floor (p.2 * (maxValue : ℚ) / total)).toNat,
        p.2 * (maxValue : ℚ) / total - Int.floor (p.2 * (maxValue : ℚ) / total)))
  else
    (qSorted rank succs).map (fun p =>
      (p, 1 + (Int.floor
          (p.2 * ((maxValue - (qSorted rank succs).length : Nat) : ℚ) / total)).toNat,
        p.2 * ((maxValue - (qSorted rank succs).length : Nat) : ℚ) / total -
          Int.floor
            (p.2 * ((maxValue - (qSorted rank succs).length : Nat) : ℚ) / total)))

/-- Modelled from the spec: the total weight allocated by the floors. -/
def qAllocated (rank : Nat → Nat) (maxValue : Nat) (succs : List (Nat × ℚ)) : Nat :=
  ((qBase rank maxValue succs).map (fun t => t.2.1)).sum

/-- Modelled from the spec: §4.5 step 5, largest-remainder order — the floor
entries re-sorted by descending fractional remainder (rank as tie-break). -/
def qByRem (rank : Nat → Nat) (maxValue : Nat) (succs : List (Nat × ℚ)) :
    List ((Nat × ℚ) × Nat × ℚ) :=
  insSortBy (fun a b => lexLeQ (-a.2.2, rank a.1.1) (-b.2.2, rank b.1.1))
    (qBase rank maxValue succs)

/-- Modelled from the spec: §4.5 step 5, distributing one extra unit to each
of the first `remaining = max_value - sum(floors)` entries in
largest-remainder order. -/
def qBumped (rank : Nat → Nat) (maxValue : Nat) (succs : List (Nat × ℚ)) :
    List ((Nat × ℚ) × Nat) :=
  (withIds 0 (qByRem rank maxValue succs)).map
    (fun ti =>
      if ti.2 < maxValue - qAllocated rank maxValue succs then (ti.1.1, ti.1.2.1 + 1)
      else (ti.1.1, ti.1.2.1))

/-- Modelled from the spec: the Quantizer of §4.5 (its source is not under
`src/`).  Per context it sorts successors by descending adjusted weight,
allocates integer floors summing to at most `max_value`, distributes the
remaining units by largest remainder, and emits `(successor, weight)` pairs
re-sorted into descending weight order (ties by adjusted weight, then
vocabulary rank). -/
def quantizeContext (rank : Nat → Nat) (maxValue : Nat) (succs : List (Nat × ℚ)) :
    List (Nat × Nat) :=
  (insSortBy
      (fun a b => lexLe3 (-(a.2 : ℚ), -a.1.2, rank a.1.1)
        (-(b.2 : ℚ), -b.1.2, rank b.1.1))
      (qBumped rank maxValue succs)).map
    (fun t => (t.1.1, t.2))

/-! ## Theorems -/

theorem lower_ne_BOS {c : Char} (h : isLowerAlpha c) : c ≠ BOS := by
  intro he; subst he; revert h; decide

theorem lower_ne_EOS {c : Char} (h : isLowerAlpha c) : c ≠ EOS := by
  intro he; subst he; revert h; decide

theorem scanLengths_some {vocab : List Char → Bool} {isBeg : Bool} {rem tok : List Char}
    {len : Nat} :
    ∀ {bound : Nat}, scanLengths vocab isBeg rem bound = some (tok, len) →
      tok ∈ candidateForms isBeg rem len ∧ 1 ≤ len ∧ len ≤ bound := by
  intro bound
  induction bound with
  | zero => intro h; simp [scanLengths] at h
  | succ b ih =>
    intro h
    unfold scanLengths at h
    cases hf : (candidateForms isBeg rem (b + 1)).find? vocab with
    | some t =>
      rw [hf] at h
      obtain ⟨rfl, rfl⟩ : tok = t ∧ len = b + 1 := by
        simpa [eq_comm, and_comm] using h
      exact ⟨List.mem_of_find?_eq_some hf, Nat.succ_le_succ (Nat.zero_le _), Nat.le_refl _⟩
    | none =>
      rw [hf] at h
      obtain ⟨h1, h2, h3⟩ := ih h
      exact ⟨h1, h2, Nat.le_succ_of_le h3⟩

theorem findMatch_some {vocab : List Char → Bool} {isBeg : Bool} {rem tok : List Char}
    {len : Nat} (h : findMatch vocab isBeg rem = some (tok, len)) :
    tok ∈ candidateForms isBeg rem len ∧ 1 ≤ len ∧ len ≤ rem.length := by
  obtain ⟨h1, h2, h3⟩ := scanLengths_some h
  exact ⟨h1, h2, le_trans h3 (Nat.min_le_right _ _)⟩

theorem take_lower {rem : List Char} {len : Nat} (hlow : ∀ c ∈ rem, isLowerAlpha c) :
    ∀ c ∈ rem.take len, isLowerAlpha c :=
  fun c hc => hlow c (List.take_subset len rem hc)

theorem take_ne_nil {rem : List Char} {len : Nat} (h1 : 1 ≤ len) (h2 : len ≤ rem.length) :
    rem.take len ≠ [] := by
  have : (rem.take len).length = len := List.length_take_of_le h2
  intro he
  rw [he] at this
  simp at this
  omega

theorem dropLead_cons_BOS {s : List Char} : dropLeadBOS (BOS :: s) = s := by
  simp [dropLeadBOS]

theorem dropLead_lower {s : List Char} (hs : s ≠ []) (hlow : ∀ c ∈ s, isLowerAlpha c) :
    dropLeadBOS s = s := by
  cases s with
  | nil => exact absurd rfl hs
  | cons a t =>
    have : a ≠ BOS := lower_ne_BOS (hlow a (List.mem_cons_self a t))
    simp [dropLeadBOS, this]

theorem dropLead_lower_concat {s : List Char} (hs : s ≠ [])
    (hlow : ∀ c ∈ s, isLowerAlpha c) : dropLeadBOS (s ++ [EOS]) = s ++ [EOS] := by
  cases s with
  | nil => exact absurd rfl hs
  | cons a t =>
    have : a ≠ BOS := lower_ne_BOS (hlow a (List.mem_cons_self a t))
    simp [dropLeadBOS, this]

theorem dropTrail_concat {s : List Char} : dropTrailEOS (s ++ [EOS]) = s := by
  simp [dropTrailEOS, List.getLast?_concat, List.dropLast_concat]

theorem dropTrail_lower {s : List Char} (hs : s ≠ []) (hlow : ∀ c ∈ s, isLowerAlpha c) :
    dropTrailEOS s = s := by
  have : s.getLast? ≠ some EOS := by
    rw [List.getLast?_eq_getLast s hs]
    intro h
    exact lower_ne_EOS (hlow _ (List.getLast_mem hs)) (by injection h)
  simp [dropTrailEOS, this]

theorem strip_BOS_append_EOS {s : List Char} :
    stripToken (BOS :: (s ++ [EOS])) = s := by
  rw [stripToken, dropLead_cons_BOS, dropTrail_concat]

theorem strip_BOS_cons {s : List Char} (hs : s ≠ []) (hlow : ∀ c ∈ s, isLowerAlpha c) :
    stripToken (BOS :: s) = s := by
  rw [stripToken, dropLead_cons_BOS, dropTrail_lower hs hlow]

theorem strip_append_EOS {s : List Char} (hs : s ≠ []) (hlow : ∀ c ∈ s, isLowerAlpha c) :
    stripToken (s ++ [EOS]) = s := by
  rw [stripToken, dropLead_lower_concat hs hlow, dropTrail_concat]

theorem strip_plain {s : List Char} (hs : s ≠ []) (hlow : ∀ c ∈ s, isLowerAlpha c) :
    stripToken s = s := by
  rw [stripToken, dropLead_lower hs hlow, dropTrail_lower hs hlow]

theorem mem_candidateForms {isBeg : Bool} {rem tok : List Char} {len : Nat}
    (hmem : tok ∈ candidateForms isBeg rem len) :
    tok = BOS :: (rem.take len ++ [EOS]) ∨ tok = BOS :: rem.take len ∨
      tok = rem.take len ++ [EOS] ∨ tok = rem.take len := by
  unfold candidateForms at hmem
  split_ifs at hmem <;> first | (simp_all; tauto) | simp_all

theorem stripToken_candidate {isBeg : Bool} {rem tok : List Char} {len : Nat}
    (hmem : tok ∈ candidateForms isBeg rem len) (h1 : 1 ≤ len) (h2 : len ≤ rem.length)
    (hlow : ∀ c ∈ rem, isLowerAlpha c) :
    stripToken tok = rem.take len := by
  have hs : rem.take len ≠ [] := take_ne_nil h1 h2
  have hsl : ∀ c ∈ rem.take len, isLowerAlpha c := take_lower hlow
  rcases mem_candidateForms hmem with rfl | rfl | rfl | rfl
  · exact strip_BOS_append_EOS
  · exact strip_BOS_cons hs hsl
  · exact strip_append_EOS hs hsl
  · exact strip_plain hs hsl

theorem stripToken_fallback {isBeg : Bool} {rem : List Char} (hne : rem ≠ [])
    (hlow : ∀ c ∈ rem, isLowerAlpha c) :
    stripToken (fallbackToken isBeg rem) = rem.take 1 := by
  have h2 : 1 ≤ rem.length := by
    cases rem with
    | nil => exact absurd rfl hne
    | cons a t => simp
  have hs : rem.take 1 ≠ [] := take_ne_nil (Nat.le_refl 1) h2
  have hsl : ∀ c ∈ rem.take 1, isLowerAlpha c := take_lower hlow
  unfold fallbackToken
  split
  · exact strip_BOS_cons hs hsl
  · split
    · exact strip_append_EOS hs hsl
    · exact strip_plain hs hsl

theorem tokenizeGo_strip_flatten (vocab : List Char → Bool) :
    ∀ (fuel : Nat) (isBeg : Bool) (rem : List Char), rem.length ≤ fuel →
      (∀ c ∈ rem, isLowerAlpha c) →
      ((tokenizeGo vocab fuel isBeg rem).map stripToken).flatten = rem := by
  intro fuel
  induction fuel with
  | zero =>
    intro isBeg rem hlen _
    have : rem = [] := by
      cases rem with
      | nil => rfl
      | cons a t => simp at hlen
    subst this
    simp [tokenizeGo]
  | succ f ih =>
    intro isBeg rem hlen hlow
    cases rem with
    | nil => simp [tokenizeGo]
    | cons a t =>
      show ((tokenizeGo vocab (f + 1) isBeg (a :: t)).map stripToken).flatten = a :: t
      rw [tokenizeGo]
      cases hf : findMatch vocab isBeg (a :: t) with
      | some tl =>
        obtain ⟨tok, len⟩ := tl
        obtain ⟨hmem, h1, h2⟩ := findMatch_some hf
        have hdrop : ∀ c ∈ (a :: t).drop len, isLowerAlpha c :=
          fun c hc => hlow c (List.drop_subset len (a :: t) hc)
        have hdlen : ((a :: t).drop len).length ≤ f := by
          rw [List.length_drop]
          simp only [List.length_cons] at hlen ⊢
          omega
        simp only [List.map_cons, List.flatten_cons]
        rw [stripToken_candidate hmem h1 h2 hlow, ih false _ hdlen hdrop,
          List.take_append_drop]
      | none =>
        have hdrop : ∀ c ∈ (a :: t).drop 1, isLowerAlpha c :=
          fun c hc => hlow c (List.drop_subset 1 (a :: t) hc)
        have hdlen : ((a :: t).drop 1).length ≤ f := by
          rw [List.length_drop]
          simp only [List.length_cons] at hlen ⊢
          omega
        simp only [List.map_cons, List.flatten_cons]
        rw [stripToken_fallback (by simp) hlow, ih false _ hdlen hdrop,
          List.take_append_drop]

/-- C1: for every non-empty all-lowercase word and every vocabulary,
concatenating the surface forms (boundary markers stripped) of the tokens
returned by `tokenize_word`, in order, yields the original word exactly —
the segmentation is lossless, with no overlap and no gap. -/
theorem tokenize_word_round_trip (w : List Char) (hw : IsWord w)
    (vocab : List Char → Bool) :
    ((tokenize_word w vocab).map stripToken).flatten = w :=
  tokenizeGo_strip_flatten vocab w.length true w (Nat.le_refl _) hw.2

/-- Witness for C1 at the concrete word `"ab"` and a one-entry vocabulary. -/
theorem tokenize_word_round_trip_witness :
    IsWord ['a', 'b'] ∧
      ((tokenize_word ['a', 'b'] (fun t => t == ['a'])).map stripToken).flatten =
        ['a', 'b'] :=
  ⟨by decide, tokenize_word_round_trip ['a', 'b'] (by decide) (fun t => t == ['a'])⟩

theorem find?_candidateForms (vocab : List Char → Bool) (isBeg : Bool)
    (rem : List Char) (len : Nat) :
    (candidateForms isBeg rem len).find? vocab = priorityPick vocab isBeg rem len := by
  unfold candidateForms priorityPick
  by_cases hl : len = rem.length
  · subst hl
    simp only [List.take_length]
    cases isBeg <;>
      cases hv1 : vocab (BOS :: (rem ++ [EOS])) <;>
      cases hv2 : vocab (BOS :: rem) <;>
      cases hv3 : vocab (rem ++ [EOS]) <;>
      cases hv4 : vocab rem <;>
      simp [List.find?, hv1, hv2, hv3, hv4]
  · cases isBeg <;>
      cases hv2 : vocab (BOS :: rem.take len) <;>
      cases hv4 : vocab (rem.take len) <;>
      simp [List.find?, hl, hv2, hv4]

theorem scanLengths_eq_some_iff (vocab : List Char → Bool) (isBeg : Bool)
    (rem : List Char) :
    ∀ (bound : Nat) (tok : List Char) (len : Nat),
      scanLengths vocab isBeg rem bound = some (tok, len) ↔
        (1 ≤ len ∧ len ≤ bound ∧ priorityPick vocab isBeg rem len = some tok ∧
          ∀ l', len < l' → l' ≤ bound → priorityPick vocab isBeg rem l' = none) := by
  intro bound
  induction bound with
  | zero =>
    intro tok len
    simp only [scanLengths]
    constructor
    · intro h; exact absurd h (by simp)
    · rintro ⟨h1, h2, -, -⟩; omega
  | succ b ih =>
    intro tok len
    rw [scanLengths, find?_candidateForms]
    cases hp : priorityPick vocab isBeg rem (b + 1) with
    | some t =>
      constructor
      · intro h
        have h' : (t, b + 1) = (tok, len) := by simpa using h
        injection h' with h1 h2
        subst h1
        subst h2
        exact ⟨by omega, Nat.le_refl _, hp, fun l' h1 h2 => by omega⟩
      · rintro ⟨h1, h2, h3, h4⟩
        rcases Nat.lt_or_ge len (b + 1) with hlt | hge
        · exact absurd (h4 (b + 1) hlt (Nat.le_refl _)) (by rw [hp]; simp)
        · have he : len = b + 1 := Nat.le_antisymm h2 hge
          subst he
          rw [hp] at h3
          rw [Option.some.inj h3]
    | none =>
      rw [ih]
      constructor
      · rintro ⟨h1, h2, h3, h4⟩
        refine ⟨h1, Nat.le_succ_of_le h2, h3, fun l' hl1 hl2 => ?_⟩
        rcases Nat.lt_or_ge l' (b + 1) with hlt | hge
        · exact h4 l' hl1 (by omega)
        · have : l' = b + 1 := by omega
          rw [this, hp]
      · rintro ⟨h1, h2, h3, h4⟩
        have hlen : len ≤ b := by
          rcases Nat.lt_or_ge len (b + 1) with hlt | hge
          · omega
          · have : len = b + 1 := by omega
            rw [this, hp] at h3
            exact absurd h3 (by simp)
        exact ⟨h1, hlen, h3, fun l' hl1 hl2 => h4 l' hl1 (Nat.le_succ_of_le hl2)⟩

/-- C4 (amended): the candidate search scans substring lengths from the
longest (at most 6, capped by the remaining length) down to the shortest and
stops at the first match; within one length it tries, in order, the
whole-word form (only at the first character when the substring spans the
word), the beginning-marked form (only at the first character), the
end-marked form (when the substring reaches the last character) and the plain
form.  Contrary to the original claim, the beginning-position search is not
restricted to whole-word/beginning-marked forms: it falls through to
end-marked and plain forms at the same length (see `priorityPick`). -/
theorem findMatch_characterization (vocab : List Char → Bool) (isBeg : Bool)
    (rem tok : List Char) (len : Nat) :
    findMatch vocab isBeg rem = some (tok, len) ↔
      (1 ≤ len ∧ len ≤ min 6 rem.length ∧
        priorityPick vocab isBeg rem len = some tok ∧
        ∀ l', len < l' → l' ≤ min 6 rem.length →
          priorityPick vocab isBeg rem l' = none) :=
  scanLengths_eq_some_iff vocab isBeg rem (min 6 rem.length) tok len

/-- C4 (counterexample): the original claim fails on the code.  With the word
`"ab"` and a vocabulary containing only the plain form `"a"`, the search at
the first character succeeds with the plain middle form `"a"` (the fallback
would have produced `"^a"`), so the beginning-position search does consider
plain middle forms before all lengths have failed. -/
theorem beginning_scope_counterexample : ¬ beginningScopedOnly := by
  intro h
  have hc : findMatch (fun t => t == ['a']) true ['a', 'b'] = some (['a'], 1) := by
    decide
  have := h (fun t => t == ['a']) ['a', 'b'] ['a'] 1 hc
  simp [BOS] at this

theorem countOcc_nil [DecidableEq κ] (k : κ) : countOcc k ([] : List κ) = 0 := rfl

theorem countOcc_cons [DecidableEq κ] (k a : κ) (l : List κ) :
    countOcc k (a :: l) = (if a = k then 1 else 0) + countOcc k l := by
  by_cases h : a = k <;> simp [countOcc, List.filter_cons, h, Nat.add_comm]

theorem countOcc_append [DecidableEq κ] (k : κ) (l1 l2 : List κ) :
    countOcc k (l1 ++ l2) = countOcc k l1 + countOcc k l2 := by
  simp [countOcc, List.filter_append]

theorem countOcc_eq_zero [DecidableEq κ] {k : κ} {l : List κ}
    (h : ∀ x ∈ l, x ≠ k) : countOcc k l = 0 := by
  induction l with
  | nil => rfl
  | cons a t ih =>
    rw [countOcc_cons, if_neg (h a (List.mem_cons_self a t)),
      ih (fun x hx => h x (List.mem_cons_of_mem a hx))]

theorem Counter.count_eq_zero_of_not_mem [DecidableEq κ] {c : Counter κ} {k : κ}
    (h : k ∉ c.keys) : c.count k = 0 := by
  have hf : c.find? (fun p => p.1 = k) = none := by
    rw [List.find?_eq_none]
    intro p hp hpk
    exact h (List.mem_map.mpr ⟨p, hp, by simpa using hpk⟩)
  simp [Counter.count, hf]

theorem Counter.count_bump [DecidableEq κ] (c : Counter κ) (k k' : κ) :
    (c.bump k).count k' = c.count k' + (if k' = k then 1 else 0) := by
  unfold Counter.bump
  by_cases hm : k ∈ c.keys
  · rw [if_pos hm]
    unfold Counter.count
    rw [List.find?_map]
    have hcomp : ((fun p : κ × Nat => decide (p.1 = k')) ∘
        (fun p : κ × Nat => if p.1 = k then (p.1, p.2 + 1) else p)) =
        (fun p : κ × Nat => decide (p.1 = k')) := by
      funext p
      by_cases h : p.1 = k <;> simp [h]
    rw [hcomp]
    cases hf : c.find? (fun p => p.1 = k') with
    | none =>
      by_cases hk : k' = k
      · subst hk
        exfalso
        rw [List.find?_eq_none] at hf
        obtain ⟨p, hp, hpk⟩ := List.mem_map.mp hm
        exact hf p hp (by simpa using hpk)
      · simp [hk]
    | some e =>
      have he : e.1 = k' := by
        have := List.find?_some hf
        simpa using this
      by_cases hk : k' = k
      · subst hk
        simp [he]
      · have : ¬(e.1 = k) := by rw [he]; exact hk
        simp [this, hk]
  · rw [if_neg hm]
    unfold Counter.count
    rw [List.find?_append]
    have hf : c.find? (fun p => p.1 = k) = none := by
      rw [List.find?_eq_none]
      intro p hp hpk
      exact hm (List.mem_map.mpr ⟨p, hp, by simpa using hpk⟩)
    by_cases hk : k' = k
    · subst hk
      rw [hf]
      simp [Counter.count_eq_zero_of_not_mem hm]
    · cases hf2 : c.find? (fun p => p.1 = k') with
      | none => simp [hk, Ne.symm hk]
      | some e => simp [hk]

theorem count_foldl_bump [DecidableEq κ] (f : Nat → κ) (ls : List Nat) :
    ∀ (c : Counter κ) (k : κ),
      (ls.foldl (fun c2 l => c2.bump (f l)) c).count k =
        c.count k + countOcc k (ls.map f) := by
  induction ls with
  | nil => intro c k; simp [countOcc_nil]
  | cons l rest ih =>
    intro c k
    simp only [List.foldl_cons, List.map_cons]
    rw [ih, Counter.count_bump, countOcc_cons]
    by_cases hfl : f l = k
    · simp only [hfl, if_pos rfl]
      omega
    · rw [if_neg hfl, if_neg (fun h => hfl h.symm)]
      omega

theorem bumpBeginEnd_fst (w : List Char)
    (be : Counter (List Char) × Counter (List Char)) :
    (bumpBeginEnd w be).1 =
      (List.range' 1 (min 6 w.length)).foldl
        (fun c l => c.bump (BOS :: w.take l)) be.1 := by
  unfold bumpBeginEnd
  generalize List.range' 1 (min 6 w.length) = ls
  induction ls generalizing be with
  | nil => rfl
  | cons l rest ih => simpa using ih _

theorem bumpBeginEnd_snd (w : List Char)
    (be : Counter (List Char) × Counter (List Char)) :
    (bumpBeginEnd w be).2 =
      (List.range' 1 (min 6 w.length)).foldl
        (fun c l => c.bump (lastN l w ++ [EOS])) be.2 := by
  unfold bumpBeginEnd
  generalize List.range' 1 (min 6 w.length) = ls
  induction ls generalizing be with
  | nil => rfl
  | cons l rest ih => simpa using ih _

theorem collect_fst_count (words : List (List Char)) :
    ∀ (acc : Counter (List Char) × Counter (List Char) × Counter (List Char))
      (k : List Char),
      ((words.foldl
          (fun acc w =>
            if w.length = 0 then acc
            else
              let be := bumpBeginEnd w (acc.1, acc.2.1)
              (be.1, be.2, bumpMiddle w acc.2.2))
          acc).1).count k =
        acc.1.count k + countOcc k ((words.map beginCandidates).flatten) := by
  induction words with
  | nil => intro acc k; simp [countOcc_nil]
  | cons w rest ih =>
    intro acc k
    simp only [List.foldl_cons, List.map_cons, List.flatten_cons]
    rw [countOcc_append]
    by_cases hw : w.length = 0
    · have hwnil : w = [] := List.length_eq_zero.mp hw
      rw [if_pos hw, ih]
      simp [beginCandidates, hwnil, countOcc_nil]
    · rw [if_neg hw, ih]
      simp only [bumpBeginEnd_fst]
      rw [count_foldl_bump (fun l => BOS :: w.take l)]
      unfold beginCandidates
      omega

theorem collect_snd_count (words : List (List Char)) :
    ∀ (acc : Counter (List Char) × Counter (List Char) × Counter (List Char))
      (k : List Char),
      ((words.foldl
          (fun acc w =>
            if w.length = 0 then acc
            else
              let be := bumpBeginEnd w (acc.1, acc.2.1)
              (be.1, be.2, bumpMiddle w acc.2.2))
          acc).2.1).count k =
        acc.2.1.count k + countOcc k ((words.map endCandidates).flatten) := by
  induction words with
  | nil => intro acc k; simp [countOcc_nil]
  | cons w rest ih =>
    intro acc k
    simp only [List.foldl_cons, List.map_cons, List.flatten_cons]
    rw [countOcc_append]
    by_cases hw : w.length = 0
    · have hwnil : w = [] := List.length_eq_zero.mp hw
      rw [if_pos hw, ih]
      simp [endCandidates, hwnil, countOcc_nil]
    · rw [if_neg hw, ih]
      simp only [bumpBeginEnd_snd]
      rw [count_foldl_bump (fun l => lastN l w ++ [EOS])]
      unfold endCandidates
      omega

/-- C5 (amended): for each word and each substring length 1 to 6 capped at
the word length, `collect_ngram_counts` records the prefix of that length,
carrying only the leading boundary marker — even when the substring covers
the entire word, no trailing marker is added — as a beginning candidate, and
records the suffix of that length with the trailing marker as an end
candidate.  Stated as: the beginning (resp. end) counter counts each key
exactly as often as it occurs among the per-word marked prefixes (resp.
suffixes), and a doubly-marked key never occurs in the beginning counter. -/
theorem collect_ngram_counts_spec (words : List (List Char))
    (hw : ∀ w ∈ words, ∀ c ∈ w, isLowerAlpha c) (k u : List Char) :
    ((collect_ngram_counts words).1).count k =
        countOcc k ((words.map beginCandidates).flatten) ∧
      ((collect_ngram_counts words).2.1).count k =
        countOcc k ((words.map endCandidates).flatten) ∧
      ((collect_ngram_counts words).1).count (BOS :: (u ++ [EOS])) = 0 := by
  refine ⟨?_, ?_, ?_⟩
  · rw [collect_ngram_counts, collect_fst_count]
    simp [Counter.count]
  · rw [collect_ngram_counts, collect_snd_count]
    simp [Counter.count]
  · rw [collect_ngram_counts, collect_fst_count]
    have hz : countOcc (BOS :: (u ++ [EOS])) ((words.map beginCandidates).flatten) = 0 := by
      apply countOcc_eq_zero
      intro x hmem hxeq
      obtain ⟨cands, hcands, hkc⟩ := List.mem_flatten.mp hmem
      obtain ⟨w, hwmem, rfl⟩ := List.mem_map.mp hcands
      unfold beginCandidates at hkc
      obtain ⟨l, hl, heq⟩ := List.mem_map.mp hkc
      rw [hxeq] at heq
      injection heq with h1 h2
      have hEOSmem : EOS ∈ w.take l := by rw [h2]; simp
      have := hw w hwmem EOS (List.take_subset l w hEOSmem)
      revert this
      decide
    rw [hz]
    simp [Counter.count]

/-- Witness for C5's amended theorem at the corpus `["ab"]`. -/
theorem collect_ngram_counts_spec_witness :
    (∀ w ∈ [['a', 'b']], ∀ c ∈ w, isLowerAlpha c) ∧
      ((collect_ngram_counts [['a', 'b']]).1).count [BOS, 'a'] =
        countOcc [BOS, 'a'] (([['a', 'b']].map beginCandidates).flatten) :=
  ⟨by decide, (collect_ngram_counts_spec [['a', 'b']] (by decide) [BOS, 'a'] ['a']).1⟩

/-- C5 (counterexample): the original claim is false on the code.  For the
single-word corpus `["a"]` the whole word is scanned (length 1 ≤ 6), yet the
beginning counter holds `"^a"` and no doubly-marked `"^a$"` candidate: the
beginning n-gram is never marked as a whole-word candidate. -/
theorem whole_word_candidate_counterexample : ¬ recordsWholeWordCandidate := by
  intro h
  have hgt := h ['a'] (by decide) (by decide)
  have hz : ((collect_ngram_counts [['a']]).1).count (BOS :: (['a'] ++ [EOS])) = 0 := by
    decide
  omega

theorem lower_ne_lbrack {c : Char} (h : isLowerAlpha c) : c ≠ '[' := by
  intro he; subst he; revert h; decide

theorem digitChar_toNat {d : Nat} (h : d < 10) : (digitChar d).toNat = 48 + d := by
  have hall : ∀ x : Fin 10, (digitChar x.val).toNat = 48 + x.val := by decide
  exact hall ⟨d, h⟩

theorem digitsVal_append (ds : List Char) (c : Char) :
    digitsVal (ds ++ [c]) = digitsVal ds * 10 + (c.toNat - 48) := by
  simp [digitsVal, List.foldl_append]

theorem natDigitsGo_val : ∀ (fuel n : Nat), n < fuel →
    digitsVal (natDigitsGo fuel n) = n := by
  intro fuel
  induction fuel with
  | zero => intro n hn; omega
  | succ f ih =>
    intro n hn
    rw [natDigitsGo]
    by_cases h10 : n < 10
    · rw [if_pos h10]
      have := digitChar_toNat h10
      simp [digitsVal, this]
    · rw [if_neg h10, digitsVal_append]
      have hd : n / 10 < n := Nat.div_lt_self (by omega) (by omega)
      rw [ih (n / 10) (by omega)]
      have hm : n % 10 < 10 := Nat.mod_lt _ (by omega)
      rw [digitChar_toNat hm]
      have := Nat.div_add_mod n 10
      omega

theorem natDigits_val (n : Nat) : digitsVal (natDigits n) = n :=
  natDigitsGo_val (n + 1) n (Nat.lt_succ_self n)

theorem natDigits_inj {a b : Nat} (h : natDigits a = natDigits b) : a = b := by
  have := congrArg digitsVal h
  rwa [natDigits_val, natDigits_val] at this

theorem phBeg_inj {a b : Nat} (h : phBeg a = phBeg b) : a = b := by
  have h2 : natDigits a ++ [']'] = natDigits b ++ [']'] := by
    simpa [phBeg] using h
  have h3 : natDigits a = natDigits b := by
    have := congrArg List.dropLast h2
    simpa [List.dropLast_concat] using this
  exact natDigits_inj h3

theorem phEnd_inj {a b : Nat} (h : phEnd a = phEnd b) : a = b := by
  have h2 : natDigits a ++ [']'] = natDigits b ++ [']'] := by
    simpa [phEnd] using h
  have h3 : natDigits a = natDigits b := by
    have := congrArg List.dropLast h2
    simpa [List.dropLast_concat] using this
  exact natDigits_inj h3

theorem phMid_inj {a b : Nat} (h : phMid a = phMid b) : a = b := by
  have h2 : natDigits a ++ [']'] = natDigits b ++ [']'] := by
    simpa [phMid] using h
  have h3 : natDigits a = natDigits b := by
    have := congrArg List.dropLast h2
    simpa [List.dropLast_concat] using this
  exact natDigits_inj h3

theorem bandOf_BOS (s : List Char) : bandOf (BOS :: s) = 0 := rfl

theorem bandOf_phBeg (j : Nat) : bandOf (phBeg j) = 0 := rfl

theorem bandOf_phEnd (j : Nat) : bandOf (phEnd j) = 1 := rfl

theorem bandOf_phMid (j : Nat) : bandOf (phMid j) = 2 := rfl

theorem bandOf_end {s : List Char} (hs : s ≠ []) (hlow : ∀ c ∈ s, isLowerAlpha c) :
    bandOf (s ++ [EOS]) = 1 := by
  cases s with
  | nil => exact absurd rfl hs
  | cons a t =>
    have ha := hlow a (List.mem_cons_self a t)
    have hb : a ≠ BOS := lower_ne_BOS ha
    have hl : a ≠ '[' := lower_ne_lbrack ha
    have hg : (a :: (t ++ [EOS])).getLast? = some EOS := by
      rw [← List.cons_append]
      exact List.getLast?_concat _
    simp [bandOf, hb, hl, hg]

theorem bandOf_mid {t : List Char} (ht : t ≠ []) (hlow : ∀ c ∈ t, isLowerAlpha c) :
    bandOf t = 2 := by
  cases t with
  | nil => exact absurd rfl ht
  | cons a s =>
    have ha := hlow a (List.mem_cons_self a s)
    have hb : a ≠ BOS := lower_ne_BOS ha
    have hl : a ≠ '[' := lower_ne_lbrack ha
    have h3 : (a :: s).getLast? ≠ some EOS := by
      rw [List.getLast?_eq_getLast (a :: s) (by simp)]
      intro h
      exact lower_ne_EOS (hlow _ (List.getLast_mem (by simp))) (by injection h)
    simp [bandOf, hb, hl, h3]

theorem disjoint_of_bandOf_ne {l1 l2 : List (List Char)}
    (h : ∀ t1 ∈ l1, ∀ t2 ∈ l2, bandOf t1 ≠ bandOf t2) : l1.Disjoint l2 :=
  fun t h1 h2 => h t h1 t h2 rfl

theorem insertSorted_perm (le : α → α → Bool) (x : α) (l : List α) :
    (insertSorted le x l).Perm (x :: l) := by
  induction l with
  | nil => exact List.Perm.refl _
  | cons y ys ih =>
    rw [insertSorted]
    split
    · exact List.Perm.refl _
    · exact List.Perm.trans (List.Perm.cons y ih) (List.Perm.swap x y ys)

theorem insSortBy_perm (le : α → α → Bool) (l : List α) :
    (insSortBy le l).Perm l := by
  induction l with
  | nil => exact List.Perm.refl _
  | cons x xs ih =>
    rw [insSortBy]
    exact List.Perm.trans (insertSorted_perm le x _) (List.Perm.cons x ih)

theorem Counter.mostCommon_keys_subset [DecidableEq κ] (n : Nat) (c : Counter κ) :
    (c.mostCommon n).keys ⊆ c.keys := by
  intro k hk
  unfold Counter.mostCommon Counter.keys at *
  have h1 : k ∈ (insSortBy (fun a b => b.2 ≤ a.2) c).map Prod.fst :=
    List.map_subset _ (List.take_subset _ _) hk
  exact ((insSortBy_perm _ c).map Prod.fst).mem_iff.mp h1

theorem Counter.mostCommon_nodup_keys [DecidableEq κ] {c : Counter κ} (n : Nat)
    (h : c.keys.Nodup) : (c.mostCommon n).keys.Nodup := by
  unfold Counter.mostCommon Counter.keys at *
  have hs : ((insSortBy (fun a b => b.2 ≤ a.2) c).map Prod.fst).Nodup :=
    (((insSortBy_perm _ c).map Prod.fst).nodup_iff).mpr h
  rw [List.map_take]
  exact hs.sublist (List.take_sublist _ _)

theorem Counter.mostCommon_length_le [DecidableEq κ] (n : Nat) (c : Counter κ) :
    (c.mostCommon n).length ≤ n := by
  simp [Counter.mostCommon]

theorem Counter.keys_bump [DecidableEq κ] (c : Counter κ) (k : κ) :
    (c.bump k).keys = if k ∈ c.keys then c.keys else c.keys ++ [k] := by
  unfold Counter.bump
  split
  · unfold Counter.keys
    rw [List.map_map]
    congr 1
    funext p
    by_cases h : p.1 = k <;> simp [h]
  · unfold Counter.keys
    simp

theorem keys_invariant_bump [DecidableEq κ] {P : κ → Prop} {c : Counter κ} {k : κ}
    (hc : ∀ x ∈ c.keys, P x) (hk : P k) : ∀ x ∈ (c.bump k).keys, P x := by
  rw [Counter.keys_bump]
  split
  · exact hc
  · intro x hx
    rcases List.mem_append.mp hx with h | h
    · exact hc x h
    · rw [List.mem_singleton.mp h]; exact hk

theorem Counter.nodup_keys_bump [DecidableEq κ] {c : Counter κ} (k : κ)
    (h : c.keys.Nodup) : (c.bump k).keys.Nodup := by
  rw [Counter.keys_bump]
  split
  · exact h
  · rename_i hnm
    simp [List.nodup_append, h, hnm]

theorem keys_invariant_foldl {β : Type} [DecidableEq κ] {P : κ → Prop}
    (step : Counter κ → β → Counter κ) :
    ∀ (ls : List β),
      (∀ c b, b ∈ ls → (∀ x ∈ c.keys, P x) → ∀ x ∈ (step c b).keys, P x) →
      ∀ c, (∀ x ∈ c.keys, P x) → ∀ x ∈ (ls.foldl step c).keys, P x := by
  intro ls
  induction ls with
  | nil => intro _ c hc; exact hc
  | cons b rest ih =>
    intro hstep c hc
    exact ih (fun c2 b2 hb2 => hstep c2 b2 (List.mem_cons_of_mem _ hb2)) _
      (hstep c b (List.mem_cons_self _ _) hc)

theorem nodup_keys_foldl {β : Type} [DecidableEq κ]
    (step : Counter κ → β → Counter κ)
    (hstep : ∀ c b, c.keys.Nodup → (step c b).keys.Nodup) :
    ∀ (ls : List β) (c : Counter κ), c.keys.Nodup → (ls.foldl step c).keys.Nodup := by
  intro ls
  induction ls with
  | nil => intro c hc; exact hc
  | cons b rest ih => intro c hc; exact ih _ (hstep c b hc)

theorem lastN_length (k : Nat) (l : List α) : (lastN k l).length = l.length - (l.length - k) := by
  simp [lastN]

theorem lastN_subset (k : Nat) (l : List α) : lastN k l ⊆ l :=
  List.drop_subset _ l

theorem collect_countersInv (words : List (List Char))
    (hw : ∀ w ∈ words, ∀ c ∈ w, isLowerAlpha c) :
    countersInv (collect_ngram_counts words) := by
  unfold collect_ngram_counts
  have main : ∀ (ws : List (List Char)), (∀ w ∈ ws, ∀ c ∈ w, isLowerAlpha c) →
      ∀ acc, countersInv acc →
        countersInv (ws.foldl
          (fun acc w =>
            if w.length = 0 then acc
            else
              let be := bumpBeginEnd w (acc.1, acc.2.1)
              (be.1, be.2, bumpMiddle w acc.2.2))
          acc) := by
    intro ws
    induction ws with
    | nil => intro _ acc h; exact h
    | cons w rest ih =>
      intro hws acc hacc
      rw [List.foldl_cons]
      refine ih (fun w2 hw2 => hws w2 (List.mem_cons_of_mem _ hw2)) _ ?_
      have hwlow : ∀ c ∈ w, isLowerAlpha c := hws w (List.mem_cons_self _ _)
      by_cases hlen : w.length = 0
      · simpa [hlen] using hacc
      · obtain ⟨h1, h2, h3, h4, h5, h6⟩ := hacc
        have hbump1 : ∀ k ∈ ((bumpBeginEnd w (acc.1, acc.2.1)).1).keys,
            ∃ s, k = BOS :: s ∧ s ≠ [] ∧ ∀ c ∈ s, isLowerAlpha c := by
          rw [bumpBeginEnd_fst]
          refine keys_invariant_foldl _ _ ?_ _ h1
          intro c l hl hc
          have hlr := List.mem_range'_1.mp hl
          refine keys_invariant_bump hc ⟨w.take l, rfl, ?_, take_lower hwlow⟩
          exact take_ne_nil (by omega) (by omega)
        have hbump2 : ∀ k ∈ ((bumpBeginEnd w (acc.1, acc.2.1)).2).keys,
            ∃ s, k = s ++ [EOS] ∧ s ≠ [] ∧ ∀ c ∈ s, isLowerAlpha c := by
          rw [bumpBeginEnd_snd]
          refine keys_invariant_foldl _ _ ?_ _ h2
          intro c l hl hc
          have hlr := List.mem_range'_1.mp hl
          refine keys_invariant_bump hc ⟨lastN l w, rfl, ?_, fun c2 hc2 => hwlow c2 (lastN_subset l w hc2)⟩
          intro hnil
          have := lastN_length l w
          rw [hnil] at this
          simp at this
          omega
        have hbump3 : ∀ k ∈ (bumpMiddle w acc.2.2).keys,
            k ≠ [] ∧ ∀ c ∈ k, isLowerAlpha c := by
          unfold bumpMiddle
          refine keys_invariant_foldl _ _ ?_ _ h3
          intro c start hstart hc
          have hsr := List.mem_range'_1.mp hstart
          refine keys_invariant_foldl _ _ ?_ _ hc
          intro c2 l hl hc2
          have hlr := List.mem_range'_1.mp hl
          split
          · rename_i hguard
            refine keys_invariant_bump hc2 ⟨?_, fun c3 hc3 =>
              hwlow c3 (List.drop_subset _ _ (List.take_subset _ _ hc3))⟩
            intro hnil
            have := congrArg List.length hnil
            rw [List.length_take, List.length_drop] at this
            simp at this
            omega
          · exact hc2
        have hnd1 : ((bumpBeginEnd w (acc.1, acc.2.1)).1).keys.Nodup := by
          rw [bumpBeginEnd_fst]
          exact nodup_keys_foldl _ (fun c k h => Counter.nodup_keys_bump _ h) _ _ h4
        have hnd2 : ((bumpBeginEnd w (acc.1, acc.2.1)).2).keys.Nodup := by
          rw [bumpBeginEnd_snd]
          exact nodup_keys_foldl _ (fun c k h => Counter.nodup_keys_bump _ h) _ _ h5
        have hnd3 : (bumpMiddle w acc.2.2).keys.Nodup := by
          unfold bumpMiddle
          refine nodup_keys_foldl _ ?_ _ _ h6
          intro c start h
          refine nodup_keys_foldl _ ?_ _ _ h
          intro c2 l h2
          split
          · exact Counter.nodup_keys_bump _ h2
          · exact h2
        simp only [hlen, if_neg]
        exact ⟨hbump1, hbump2, hbump3, hnd1, hnd2, hnd3⟩
  exact main words hw ([], [], []) (by simp [countersInv, Counter.keys])

theorem phBeg_head (j : Nat) : (phBeg j).head? = some '[' := rfl

theorem phEnd_head (j : Nat) : (phEnd j).head? = some '[' := rfl

theorem phMid_head (j : Nat) : (phMid j).head? = some '[' := rfl

theorem bandNames_length (c : Counter (List Char)) (cap : Nat) (ph : Nat → List Char) :
    (bandNames c cap ph).length = max cap ((c.mostCommon cap).keys).length := by
  simp [bandNames]
  omega

theorem bandNames_length_of_le (c : Counter (List Char)) (cap : Nat)
    (ph : Nat → List Char) : (bandNames c cap ph).length = cap := by
  rw [bandNames_length]
  have h1 : ((c.mostCommon cap).keys).length ≤ cap := by
    have := Counter.mostCommon_length_le cap c
    simpa [Counter.keys] using this
  omega

theorem bandNames_nodup (cap : Nat) (ph : Nat → List Char)
    (hinj : ∀ a b, ph a = ph b → a = b)
    (hph : ∀ j, (ph j).head? = some '[')
    {c : Counter (List Char)} (hnd : c.keys.Nodup)
    (hkeys : ∀ k ∈ c.keys, k.head? ≠ some '[') :
    (bandNames c cap ph).Nodup := by
  simp only [bandNames]
  rw [List.nodup_append]
  refine ⟨Counter.mostCommon_nodup_keys cap hnd, ?_, ?_⟩
  · exact (List.nodup_range' _ _).map (fun a b h => hinj a b h)
  · intro t ht hpt
    obtain ⟨j, hj, rfl⟩ := List.mem_map.mp hpt
    exact hkeys _ (Counter.mostCommon_keys_subset cap c ht) (hph j)

theorem bandNames_bandOf {c : Counter (List Char)} (cap : Nat) (ph : Nat → List Char)
    {n : Nat} (hk : ∀ k ∈ c.keys, bandOf k = n) (hph : ∀ j, bandOf (ph j) = n) :
    ∀ t ∈ bandNames c cap ph, bandOf t = n := by
  intro t ht
  simp only [bandNames] at ht
  rcases List.mem_append.mp ht with h | h
  · exact hk t (Counter.mostCommon_keys_subset _ _ h)
  · obtain ⟨j, hj, rfl⟩ := List.mem_map.mp h
    exact hph j

theorem mem_bandNames {c : Counter (List Char)} {cap : Nat} {ph : Nat → List Char}
    {t : List Char} (ht : t ∈ bandNames c cap ph) :
    t ∈ c.keys ∨ ∃ j, t = ph j := by
  simp only [bandNames] at ht
  rcases List.mem_append.mp ht with h | h
  · exact Or.inl (Counter.mostCommon_keys_subset _ _ h)
  · obtain ⟨j, hj, rfl⟩ := List.mem_map.mp h
    exact Or.inr ⟨j, rfl⟩

theorem withIds_append (i : Nat) (l1 l2 : List α) :
    withIds i (l1 ++ l2) = withIds i l1 ++ withIds (i + l1.length) l2 := by
  induction l1 generalizing i with
  | nil => simp [withIds]
  | cons a t ih =>
    simp only [List.cons_append, withIds, List.length_cons, List.append_eq]
    rw [ih (i + 1)]
    have : i + 1 + t.length = i + (t.length + 1) := by omega
    rw [this]

theorem map_fst_withIds (i : Nat) (l : List α) :
    (withIds i l).map Prod.fst = l := by
  induction l generalizing i with
  | nil => rfl
  | cons a t ih => simp [withIds, ih]

theorem map_snd_withIds (i : Nat) (l : List α) :
    (withIds i l).map Prod.snd = List.range' i l.length := by
  induction l generalizing i with
  | nil => rfl
  | cons a t ih => simp [withIds, ih, List.range'_succ]

theorem length_withIds (i : Nat) (l : List α) : (withIds i l).length = l.length := by
  have := congrArg List.length (map_fst_withIds i l)
  simpa using this

theorem mem_withIds {i : Nat} {l : List α} {p : α × Nat} (hp : p ∈ withIds i l) :
    p.1 ∈ l ∧ i ≤ p.2 ∧ p.2 < i + l.length := by
  induction l generalizing i with
  | nil => simp [withIds] at hp
  | cons a t ih =>
    simp only [withIds, List.mem_cons] at hp
    rcases hp with rfl | hp
    · simp
    · obtain ⟨h1, h2, h3⟩ := ih hp
      refine ⟨List.mem_cons_of_mem _ h1, by omega, by simpa [Nat.add_assoc] using by omega⟩

theorem withIds_map_range' (f : Nat → α) (b : Nat) :
    ∀ (n s : Nat), withIds (b + s) ((List.range' s n).map f) =
      (List.range' s n).map (fun x => (f x, b + x)) := by
  intro n
  induction n with
  | zero => intro s; rfl
  | succ m ih =>
    intro s
    rw [List.range'_succ]
    simp only [List.map_cons, withIds]
    have : b + s + 1 = b + (s + 1) := by omega
    rw [this, ih (s + 1)]

theorem pyDictOf_eq_self (l : List (List Char × Nat))
    (h : (l.map Prod.fst).Nodup) : pyDictOf l = l := by
  suffices main : ∀ (l2 d : List (List Char × Nat)),
      ((d ++ l2).map Prod.fst).Nodup → l2.foldl pyDictInsert d = d ++ l2 by
    simpa using main l [] (by simpa using h)
  intro l2
  induction l2 with
  | nil => intro d _; simp [List.foldl_nil]
  | cons kv rest ih =>
    intro d h
    rw [List.foldl_cons]
    have hnotin : kv.1 ∉ d.map Prod.fst := by
      rw [List.map_append] at h
      have hdisj := (List.nodup_append.mp h).2.2
      intro hin
      exact hdisj hin (by simp)
    rw [pyDictInsert, if_neg hnotin]
    have h2 : (((d ++ [kv]) ++ rest).map Prod.fst).Nodup := by
      rw [List.append_assoc, List.singleton_append]
      exact h
    rw [ih (d ++ [kv]) h2, List.append_assoc, List.singleton_append]

theorem build_vocabulary_names (b e m : Counter (List Char))
    (hinv : countersInv (b, e, m)) :
    build_vocabulary b e m =
      withIds 0 (bandNames b 256 phBeg) ++ withIds 256 (bandNames e 256 phEnd) ++
        withIds 512 (bandNames m 512 phMid) := by
  obtain ⟨h1, h2, h3, h4, h5, h6⟩ := hinv
  have hB0 : ∀ t ∈ bandNames b 256 phBeg, bandOf t = 0 := by
    refine bandNames_bandOf 256 phBeg ?_ bandOf_phBeg
    intro k hk
    obtain ⟨s, rfl, -, -⟩ := h1 k hk
    exact bandOf_BOS s
  have hE1 : ∀ t ∈ bandNames e 256 phEnd, bandOf t = 1 := by
    refine bandNames_bandOf 256 phEnd ?_ bandOf_phEnd
    intro k hk
    obtain ⟨s, rfl, hs, hlow⟩ := h2 k hk
    exact bandOf_end hs hlow
  have hM2 : ∀ t ∈ bandNames m 512 phMid, bandOf t = 2 := by
    refine bandNames_bandOf 512 phMid ?_ bandOf_phMid
    intro k hk
    exact bandOf_mid (h3 k hk).1 (h3 k hk).2
  have hndB : (bandNames b 256 phBeg).Nodup := by
    refine bandNames_nodup 256 phBeg (fun a b2 => phBeg_inj) phBeg_head h4 ?_
    intro k hk hhead
    obtain ⟨s, rfl, -, -⟩ := h1 k hk
    simp [BOS] at hhead
  have hndE : (bandNames e 256 phEnd).Nodup := by
    refine bandNames_nodup 256 phEnd (fun a b2 => phEnd_inj) phEnd_head h5 ?_
    intro k hk hhead
    obtain ⟨s, rfl, hs, hlow⟩ := h2 k hk
    cases s with
    | nil => exact hs rfl
    | cons a t =>
      simp only [List.cons_append, List.head?_cons, Option.some.injEq] at hhead
      exact lower_ne_lbrack (hlow a (List.mem_cons_self a t)) hhead
  have hndM : (bandNames m 512 phMid).Nodup := by
    refine bandNames_nodup 512 phMid (fun a b2 => phMid_inj) phMid_head h6 ?_
    intro k hk hhead
    obtain ⟨hne, hlow⟩ := h3 k hk
    cases k with
    | nil => exact hne rfl
    | cons a t =>
      simp only [List.head?_cons, Option.some.injEq] at hhead
      exact lower_ne_lbrack (hlow a (List.mem_cons_self a t)) hhead
  unfold build_vocabulary
  apply pyDictOf_eq_self
  rw [List.map_append, List.map_append, map_fst_withIds, map_fst_withIds,
    map_fst_withIds]
  rw [List.nodup_append, List.nodup_append]
  refine ⟨⟨hndB, hndE, ?_⟩, hndM, ?_⟩
  · exact disjoint_of_bandOf_ne
      (fun t1 ht1 t2 ht2 => by rw [hB0 t1 ht1, hE1 t2 ht2]; omega)
  · intro t htBE htM
    have h2 := hM2 t htM
    rcases List.mem_append.mp htBE with h | h
    · have := hB0 t h
      omega
    · have := hE1 t h
      omega

theorem mem_vocab_band {b e m : Counter (List Char)} (hinv : countersInv (b, e, m))
    {p : List Char × Nat} (hp : p ∈ build_vocabulary b e m) :
    (p ∈ withIds 0 (bandNames b 256 phBeg) ∧ p.2 < 256) ∨
      (p ∈ withIds 256 (bandNames e 256 phEnd) ∧ 256 ≤ p.2 ∧ p.2 < 512) ∨
      (p ∈ withIds 512 (bandNames m 512 phMid) ∧ 512 ≤ p.2 ∧ p.2 < 1024) := by
  rw [build_vocabulary_names b e m hinv] at hp
  rcases List.mem_append.mp hp with hBE | hM
  · rcases List.mem_append.mp hBE with hB | hE
    · obtain ⟨-, -, h3⟩ := mem_withIds hB
      left
      refine ⟨hB, ?_⟩
      have := bandNames_length_of_le b 256 phBeg
      omega
    · obtain ⟨-, h2, h3⟩ := mem_withIds hE
      right; left
      refine ⟨hE, h2, ?_⟩
      have := bandNames_length_of_le e 256 phEnd
      omega
  · obtain ⟨-, h2, h3⟩ := mem_withIds hM
    right; right
    refine ⟨hM, h2, ?_⟩
    have := bandNames_length_of_le m 512 phMid
    omega

/-- C2: for every lowercase corpus, including the empty corpus, the trained
vocabulary has exactly 1024 entries whose ids are exactly 0..1023 in order;
ids below 256 carry beginning-band labels (a counted beginning n-gram or a
`BEG` placeholder), ids in [256,512) end-band labels, ids in [512,1024)
middle-band labels; every band slot beyond its real candidates holds its
placeholder; and on the empty corpus every entry is a placeholder. -/
theorem build_vocabulary_spec (words : List (List Char))
    (hw : ∀ w ∈ words, ∀ c ∈ w, isLowerAlpha c) :
    (trainedVocabulary words).length = 1024 ∧
    (trainedVocabulary words).map Prod.snd = List.range 1024 ∧
    (∀ p ∈ trainedVocabulary words,
      (p.2 < 256 → p.1 ∈ ((collect_ngram_counts words).1).keys ∨ ∃ j, p.1 = phBeg j) ∧
      (256 ≤ p.2 → p.2 < 512 →
        p.1 ∈ ((collect_ngram_counts words).2.1).keys ∨ ∃ j, p.1 = phEnd j) ∧
      (512 ≤ p.2 → p.1 ∈ ((collect_ngram_counts words).2.2).keys ∨ ∃ j, p.1 = phMid j)) ∧
    (∀ j, (((collect_ngram_counts words).1).mostCommon 256).length ≤ j → j < 256 →
      (phBeg j, j) ∈ trainedVocabulary words) ∧
    (∀ j, (((collect_ngram_counts words).2.1).mostCommon 256).length ≤ j → j < 256 →
      (phEnd j, 256 + j) ∈ trainedVocabulary words) ∧
    (∀ j, (((collect_ngram_counts words).2.2).mostCommon 512).length ≤ j → j < 512 →
      (phMid j, 512 + j) ∈ trainedVocabulary words) ∧
    (words = [] → ∀ p ∈ trainedVocabulary words,
      ∃ j, p.1 = phBeg j ∨ p.1 = phEnd j ∨ p.1 = phMid j) := by
  have hinv : countersInv ((collect_ngram_counts words).1,
      (collect_ngram_counts words).2.1, (collect_ngram_counts words).2.2) :=
    collect_countersInv words hw
  have heq : trainedVocabulary words =
      withIds 0 (bandNames (collect_ngram_counts words).1 256 phBeg) ++
        withIds 256 (bandNames (collect_ngram_counts words).2.1 256 phEnd) ++
        withIds 512 (bandNames (collect_ngram_counts words).2.2 512 phMid) :=
    build_vocabulary_names _ _ _ hinv
  have hlB := bandNames_length_of_le (collect_ngram_counts words).1 256 phBeg
  have hlE := bandNames_length_of_le (collect_ngram_counts words).2.1 256 phEnd
  have hlM := bandNames_length_of_le (collect_ngram_counts words).2.2 512 phMid
  have hband : ∀ p ∈ trainedVocabulary words,
      (p ∈ withIds 0 (bandNames (collect_ngram_counts words).1 256 phBeg) ∧
        p.2 < 256) ∨
      (p ∈ withIds 256 (bandNames (collect_ngram_counts words).2.1 256 phEnd) ∧
        256 ≤ p.2 ∧ p.2 < 512) ∨
      (p ∈ withIds 512 (bandNames (collect_ngram_counts words).2.2 512 phMid) ∧
        512 ≤ p.2 ∧ p.2 < 1024) :=
    fun p hp => mem_vocab_band hinv hp
  refine ⟨?_, ?_, ?_, ?_, ?_, ?_, ?_⟩
  · rw [heq]
    simp [length_withIds, hlB, hlE, hlM]
  · rw [heq, List.map_append, List.map_append, map_snd_withIds, map_snd_withIds,
      map_snd_withIds, hlB, hlE, hlM, List.range_eq_range']
    have h1 : List.range' 0 256 ++ List.range' 256 256 = List.range' 0 512 := by
      simpa using List.range'_append_1 0 256 256
    have h2 : List.range' 0 512 ++ List.range' 512 512 = List.range' 0 1024 := by
      simpa using List.range'_append_1 0 512 512
    rw [h1, h2]
  · intro p hp
    rcases hband p hp with ⟨hm, hr⟩ | ⟨hm, hr1, hr2⟩ | ⟨hm, hr1, hr2⟩
    · exact ⟨fun _ => mem_bandNames (mem_withIds hm).1,
        fun h _ => by omega, fun h => by omega⟩
    · exact ⟨fun h => by omega, fun _ _ => mem_bandNames (mem_withIds hm).1,
        fun h => by omega⟩
    · exact ⟨fun h => by omega, fun _ h => by omega,
        fun _ => mem_bandNames (mem_withIds hm).1⟩
  · intro j hj1 hj2
    rw [heq]
    apply List.mem_append_left
    apply List.mem_append_left
    simp only [bandNames, withIds_append]
    apply List.mem_append_right
    have htl : ((collect_ngram_counts words).1.mostCommon 256).keys.length =
        ((collect_ngram_counts words).1.mostCommon 256).length := by
      simp [Counter.keys]
    have hmap := withIds_map_range' phBeg 0
      (256 - ((collect_ngram_counts words).1.mostCommon 256).keys.length)
      ((collect_ngram_counts words).1.mostCommon 256).keys.length
    rw [hmap]
    have hjmem : j ∈ List.range'
        ((collect_ngram_counts words).1.mostCommon 256).keys.length
        (256 - ((collect_ngram_counts words).1.mostCommon 256).keys.length) := by
      rw [List.mem_range'_1]
      have hle := Counter.mostCommon_length_le 256 (collect_ngram_counts words).1
      omega
    have hin := List.mem_map_of_mem (fun x => (phBeg x, 0 + x)) hjmem
    simpa using hin
  · intro j hj1 hj2
    rw [heq]
    apply List.mem_append_left
    apply List.mem_append_right
    simp only [bandNames, withIds_append]
    apply List.mem_append_right
    have hmap := withIds_map_range' phEnd 256
      (256 - ((collect_ngram_counts words).2.1.mostCommon 256).keys.length)
      ((collect_ngram_counts words).2.1.mostCommon 256).keys.length
    rw [hmap]
    have hjmem : j ∈ List.range'
        ((collect_ngram_counts words).2.1.mostCommon 256).keys.length
        (256 - ((collect_ngram_counts words).2.1.mostCommon 256).keys.length) := by
      rw [List.mem_range'_1]
      have : ((collect_ngram_counts words).2.1.mostCommon 256).keys.length =
          ((collect_ngram_counts words).2.1.mostCommon 256).length := by
        simp [Counter.keys]
      have hle := Counter.mostCommon_length_le 256 (collect_ngram_counts words).2.1
      omega
    exact List.mem_map_of_mem (fun x => (phEnd x, 256 + x)) hjmem
  · intro j hj1 hj2
    rw [heq]
    apply List.mem_append_right
    simp only [bandNames, withIds_append]
    apply List.mem_append_right
    have hmap := withIds_map_range' phMid 512
      (512 - ((collect_ngram_counts words).2.2.mostCommon 512).keys.length)
      ((collect_ngram_counts words).2.2.mostCommon 512).keys.length
    rw [hmap]
    have hjmem : j ∈ List.range'
        ((collect_ngram_counts words).2.2.mostCommon 512).keys.length
        (512 - ((collect_ngram_counts words).2.2.mostCommon 512).keys.length) := by
      rw [List.mem_range'_1]
      have : ((collect_ngram_counts words).2.2.mostCommon 512).keys.length =
          ((collect_ngram_counts words).2.2.mostCommon 512).length := by
        simp [Counter.keys]
      have hle := Counter.mostCommon_length_le 512 (collect_ngram_counts words).2.2
      omega
    exact List.mem_map_of_mem (fun x => (phMid x, 512 + x)) hjmem
  · intro hnil p hp
    subst hnil
    rcases hband p hp with ⟨hm, -⟩ | ⟨hm, -⟩ | ⟨hm, -⟩
    · rcases mem_bandNames (mem_withIds hm).1 with hk | ⟨j, hj⟩
      · exact absurd hk (by simp [collect_ngram_counts, Counter.keys])
      · exact ⟨j, Or.inl hj⟩
    · rcases mem_bandNames (mem_withIds hm).1 with hk | ⟨j, hj⟩
      · exact absurd hk (by simp [collect_ngram_counts, Counter.keys])
      · exact ⟨j, Or.inr (Or.inl hj)⟩
    · rcases mem_bandNames (mem_withIds hm).1 with hk | ⟨j, hj⟩
      · exact absurd hk (by simp [collect_ngram_counts, Counter.keys])
      · exact ⟨j, Or.inr (Or.inr hj)⟩

/-- Witness for C2 at the concrete corpus `["ab"]`. -/
theorem build_vocabulary_spec_witness :
    (∀ w ∈ [['a', 'b']], ∀ c ∈ w, isLowerAlpha c) ∧
      (trainedVocabulary [['a', 'b']]).length = 1024 :=
  ⟨by decide, (build_vocabulary_spec [['a', 'b']] (by decide)).1⟩

theorem pairwise_insertSorted {le : α → α → Bool}
    (htot : ∀ a b, le a b = true ∨ le b a = true)
    (htrans : ∀ a b c, le a b = true → le b c = true → le a c = true)
    (x : α) : ∀ (l : List α), l.Pairwise (fun a b => le a b = true) →
      (insertSorted le x l).Pairwise (fun a b => le a b = true) := by
  intro l
  induction l with
  | nil => intro _; simp [insertSorted]
  | cons y ys ih =>
    intro hl
    rw [insertSorted]
    rcases List.pairwise_cons.mp hl with ⟨hy, hys⟩
    split
    · rename_i hxy
      refine List.pairwise_cons.mpr ⟨?_, hl⟩
      intro z hz
      rcases List.mem_cons.mp hz with rfl | hz2
      · exact hxy
      · exact htrans x y z hxy (hy z hz2)
    · rename_i hxy
      have hyx : le y x = true := (htot x y).resolve_left hxy
      refine List.pairwise_cons.mpr ⟨?_, ih hys⟩
      intro z hz
      have hmem := (insertSorted_perm le x ys).mem_iff.mp hz
      rcases List.mem_cons.mp hmem with rfl | hz2
      · exact hyx
      · exact hy z hz2

theorem pairwise_insSortBy {le : α → α → Bool}
    (htot : ∀ a b, le a b = true ∨ le b a = true)
    (htrans : ∀ a b c, le a b = true → le b c = true → le a c = true) :
    ∀ (l : List α), (insSortBy le l).Pairwise (fun a b => le a b = true) := by
  intro l
  induction l with
  | nil => simp [insSortBy]
  | cons x xs ih => exact pairwise_insertSorted htot htrans x _ ih

theorem lexLeQ_total (x y : ℚ × Nat) : lexLeQ x y = true ∨ lexLeQ y x = true := by
  simp only [lexLeQ, decide_eq_true_eq]
  rcases lt_trichotomy x.1 y.1 with h | h | h
  · exact Or.inl (Or.inl h)
  · rcases Nat.le_total x.2 y.2 with h2 | h2
    · exact Or.inl (Or.inr ⟨h, h2⟩)
    · exact Or.inr (Or.inr ⟨h.symm, h2⟩)
  · exact Or.inr (Or.inl h)

theorem lexLeQ_trans {x y z : ℚ × Nat} (h1 : lexLeQ x y = true)
    (h2 : lexLeQ y z = true) : lexLeQ x z = true := by
  simp only [lexLeQ, decide_eq_true_eq] at h1 h2 ⊢
  rcases h1 with h1 | ⟨h1e, h1n⟩ <;> rcases h2 with h2 | ⟨h2e, h2n⟩
  · exact Or.inl (lt_trans h1 h2)
  · exact Or.inl (h2e ▸ h1)
  · exact Or.inl (h1e ▸ h2)
  · exact Or.inr ⟨h1e.trans h2e, le_trans h1n h2n⟩

theorem sorted_key_false_imp_earlier (le : α → α → Bool)
    (htot : ∀ a b, le a b = true ∨ le b a = true)
    (l : List α) (hpair : l.Pairwise (fun a b => le a b = true))
    (i j : Nat) (hi : i < l.length) (hj : j < l.length)
    (hstrict : le (l.get ⟨j, hj⟩) (l.get ⟨i, hi⟩) = false) : i < j := by
  by_contra hcon
  push_neg at hcon
  rcases Nat.eq_or_lt_of_le hcon with heq | hlt
  · have : (⟨j, hj⟩ : Fin l.length) = ⟨i, hi⟩ := by
      apply Fin.ext
      exact heq
    rw [this] at hstrict
    rcases htot (l.get ⟨i, hi⟩) (l.get ⟨i, hi⟩) with h | h <;>
      rw [h] at hstrict <;> cases hstrict
  · have := List.pairwise_iff_get.mp hpair ⟨j, hj⟩ ⟨i, hi⟩ hlt
    rw [this] at hstrict
    cases hstrict

theorem eq_of_fst_eq_of_nodup {α β : Type} {l : List (α × β)}
    (h : (l.map Prod.fst).Nodup) :
    ∀ {p q : α × β}, p ∈ l → q ∈ l → p.1 = q.1 → p = q := by
  induction l with
  | nil => intro p q hp; simp at hp
  | cons a t ih =>
    intro p q hp hq heq
    rw [List.map_cons, List.nodup_cons] at h
    rcases List.mem_cons.mp hp with rfl | hp2 <;> rcases List.mem_cons.mp hq with rfl | hq2
    · rfl
    · exact absurd (heq ▸ List.mem_map_of_mem Prod.fst hq2) h.1
    · exact absurd (heq ▸ List.mem_map_of_mem Prod.fst hp2) h.1
    · exact ih h.2 hp2 hq2 heq

/-- C8: within any one context of the emitted bigram model, if the raw count
of successor `A` strictly exceeds that of successor `B`, then `A`'s position
in the ordered successor list (`ordered_seconds`) is strictly before `B`'s:
strict count dominance is never inverted by the probability sort, whatever
the tie-break ranks are.  (Python's float probabilities are idealized as
exact rationals.) -/
theorem secondsLe_false {rank : Tok → Nat} {T : Nat} (hT : 0 < T)
    {A B : Tok} {cA cB : Nat} (hlt : cB < cA) :
    secondsLe rank T (B, cB) (A, cA) = false := by
  have hkey : -((cA : ℚ) / (T : ℚ)) < -((cB : ℚ) / (T : ℚ)) := by
    have hTq : (0 : ℚ) < (T : ℚ) := by exact_mod_cast hT
    have : (cB : ℚ) / (T : ℚ) < (cA : ℚ) / (T : ℚ) := by
      apply div_lt_div_of_pos_right ?_ hTq
      exact_mod_cast hlt
    linarith
  simp only [secondsLe, lexLeQ, if_pos hT, decide_eq_false_iff_not]
  intro hcon
  rcases hcon with h | ⟨he, -⟩
  · exact absurd (lt_trans h hkey) (lt_irrefl _)
  · rw [he] at hkey
    exact absurd hkey (lt_irrefl _)

theorem orderedSeconds_monotone (rank : Tok → Nat) (seconds : Counter Tok)
    (hnd : (seconds.map Prod.fst).Nodup) (A B : Tok) (cA cB : Nat)
    (hA : (A, cA) ∈ seconds) (hB : (B, cB) ∈ seconds) (hlt : cB < cA) :
    ∀ (i j : Nat) (hi : i < (orderedSeconds rank seconds).length)
      (hj : j < (orderedSeconds rank seconds).length),
      ((orderedSeconds rank seconds).get ⟨i, hi⟩).1 = A →
      ((orderedSeconds rank seconds).get ⟨j, hj⟩).1 = B → i < j := by
  intro i j hi hj hiA hjB
  have hTpos : 0 < (seconds.map Prod.snd).sum := by
    have hmem : cA ∈ seconds.map Prod.snd := List.mem_map_of_mem Prod.snd hA
    have := List.single_le_sum (fun x _ => Nat.zero_le x) cA hmem
    omega
  have hos : orderedSeconds rank seconds =
      (insSortBy (secondsLe rank ((seconds.map Prod.snd).sum)) seconds).map
        (secondsEntry ((seconds.map Prod.snd).sum)) := rfl
  have hperm := insSortBy_perm (secondsLe rank ((seconds.map Prod.snd).sum)) seconds
  have hpair := @pairwise_insSortBy _
    (secondsLe rank ((seconds.map Prod.snd).sum))
    (fun a b => lexLeQ_total _ _) (fun a b c h1 h2 => lexLeQ_trans h1 h2) seconds
  have hilen : i < (insSortBy (secondsLe rank ((seconds.map Prod.snd).sum)) seconds).length := by
    rw [hos, List.length_map] at hi
    exact hi
  have hjlen : j < (insSortBy (secondsLe rank ((seconds.map Prod.snd).sum)) seconds).length := by
    rw [hos, List.length_map] at hj
    exact hj
  have hfstA : ((insSortBy (secondsLe rank ((seconds.map Prod.snd).sum)) seconds).get
      ⟨i, hilen⟩).1 = A := by
    simp only [List.get_eq_getElem] at hiA ⊢
    simp only [hos, List.getElem_map, secondsEntry] at hiA
    exact hiA
  have hfstB : ((insSortBy (secondsLe rank ((seconds.map Prod.snd).sum)) seconds).get
      ⟨j, hjlen⟩).1 = B := by
    simp only [List.get_eq_getElem] at hjB ⊢
    simp only [hos, List.getElem_map, secondsEntry] at hjB
    exact hjB
  have hiEq : (insSortBy (secondsLe rank ((seconds.map Prod.snd).sum)) seconds).get
      ⟨i, hilen⟩ = (A, cA) :=
    eq_of_fst_eq_of_nodup hnd (hperm.mem_iff.mp (List.get_mem _ _ _)) hA hfstA
  have hjEq : (insSortBy (secondsLe rank ((seconds.map Prod.snd).sum)) seconds).get
      ⟨j, hjlen⟩ = (B, cB) :=
    eq_of_fst_eq_of_nodup hnd (hperm.mem_iff.mp (List.get_mem _ _ _)) hB hfstB
  have hstrict : secondsLe rank ((seconds.map Prod.snd).sum)
      ((insSortBy (secondsLe rank ((seconds.map Prod.snd).sum)) seconds).get ⟨j, hjlen⟩)
      ((insSortBy (secondsLe rank ((seconds.map Prod.snd).sum)) seconds).get ⟨i, hilen⟩) =
        false := by
    rw [hiEq, hjEq]
    exact secondsLe_false hTpos hlt
  exact sorted_key_false_imp_earlier _ (fun a b => lexLeQ_total _ _) _ hpair
    i j hilen hjlen hstrict

/-- Witness for C8 at a concrete two-successor counter. -/
theorem orderedSeconds_monotone_witness :
    (([(['x'], 2), (['y'], 1)] : Counter Tok).map Prod.fst).Nodup ∧
      (∀ (i j : Nat)
        (hi : i < (orderedSeconds (fun _ => 0) [(['x'], 2), (['y'], 1)]).length)
        (hj : j < (orderedSeconds (fun _ => 0) [(['x'], 2), (['y'], 1)]).length),
        ((orderedSeconds (fun _ => 0) [(['x'], 2), (['y'], 1)]).get ⟨i, hi⟩).1 = ['x'] →
        ((orderedSeconds (fun _ => 0) [(['x'], 2), (['y'], 1)]).get ⟨j, hj⟩).1 = ['y'] →
        i < j) :=
  ⟨by decide,
    orderedSeconds_monotone (fun _ => 0) [(['x'], 2), (['y'], 1)] (by decide)
      ['x'] ['y'] 2 1 (by decide) (by decide) (by decide)⟩

/-- C7: the training pipeline of `tokenize.py` — vocabulary construction,
tokenization, transition counting and model assembly — is a pure function of
the corpus word list: two runs over identical input produce identical
vocabularies and identical model structures (hence byte-identical persisted
JSON).  All iteration orders in the source are insertion orders of Python
dicts and `Counter`s, all sorts use fully deterministic keys and stable
sorting, and no randomness enters; the embedding therefore is a function,
and equal inputs give equal outputs. -/
theorem trainPipeline_deterministic (w1 w2 : List (List Char)) (h : w1 = w2) :
    trainPipeline w1 = trainPipeline w2 :=
  congrArg trainPipeline h

/-- Witness for C7 at the concrete corpus `["a"]`. -/
theorem trainPipeline_deterministic_witness :
    [['a']] = [['a']] ∧ trainPipeline [['a']] = trainPipeline [['a']] :=
  ⟨rfl, trainPipeline_deterministic [['a']] [['a']] rfl⟩

/-- C6: for every n-gram order `n ≥ 1` and every tokenized input line, the
pairs counted by `train_ngram`'s loop are exactly, position by position of
the wrapped token sequence `ids ++ [end]`, the pair (context, token at `i`)
where the context is the `n−1` tokens immediately preceding position `i`,
left-padded with the start sentinel for positions before the sequence
start. -/
theorem ngramPairs_eq_spec (n s e : Nat) (ids : List Nat) (hn : 1 ≤ n) :
    ngramPairs n s e ids = ngramPairsSpec n s e ids := by
  unfold ngramPairs ngramPairsSpec ngramWrapped
  simp only []
  have hlen : (List.replicate (n - 1) s ++ ids ++ [e]).length - n + 1 =
      (ids ++ [e]).length := by
    simp only [List.length_append, List.length_replicate, List.length_cons,
      List.length_nil]
    omega
  rw [hlen]
  apply List.map_congr_left
  intro i hi
  rw [List.mem_range] at hi
  have hPlen : (List.replicate (n - 1) s).length = n - 1 := List.length_replicate _ _
  have hctx : ((List.replicate (n - 1) s ++ (ids ++ [e])).drop i).take (n - 1) =
      lastN (n - 1) (List.replicate (n - 1) s ++ (ids ++ [e]).take i) := by
    rw [List.take_drop]
    have htake : (List.replicate (n - 1) s ++ (ids ++ [e])).take (i + (n - 1)) =
        List.replicate (n - 1) s ++ (ids ++ [e]).take i := by
      rw [List.take_append_eq_append_take]
      rw [List.take_of_length_le (by omega)]
      congr 1
      congr 1
      omega
    rw [htake]
    unfold lastN
    congr 1
    have hti : ((ids ++ [e]).take i).length = i := by
      rw [List.length_take]
      omega
    rw [List.length_append, hPlen, hti]
    omega
  have hnext : (List.replicate (n - 1) s ++ (ids ++ [e])).getD (i + n - 1) 0 =
      (ids ++ [e]).getD i 0 := by
    rw [List.getD_append_right _ _ _ _ (by rw [hPlen]; omega)]
    rw [hPlen]
    congr 1
    omega
  rw [← List.append_assoc] at hctx hnext
  rw [hctx, hnext]

/-- Witness for C6 at `n = 2`, sentinels 0/1, line `[5]`. -/
theorem ngramPairs_eq_spec_witness :
    1 ≤ 2 ∧ ngramPairs 2 0 1 [5] = ngramPairsSpec 2 0 1 [5] :=
  ⟨by decide, ngramPairs_eq_spec 2 0 1 [5] (by decide)⟩

/-- C9: calling `train_ngram` with an n-gram order below 1 raises
`ValueError("n must be at least 1")` before anything else happens, so the
result carries no model and no output file is ever written under this
configuration error. -/
theorem trainNgram_rejects_small_n (n : Int) (startId? endId? : Option Nat)
    (lines : List (List Nat × List Tok)) (hn : n < 1) :
    trainNgram n startId? endId? lines = .error .nAtLeastOne := by
  unfold trainNgram
  rw [if_pos hn]

/-- Witness for C9 at `n = 0`. -/
theorem trainNgram_rejects_small_n_witness :
    (0 : Int) < 1 ∧ trainNgram 0 (some 1) (some 2) [] = .error .nAtLeastOne :=
  ⟨by decide, trainNgram_rejects_small_n 0 (some 1) (some 2) [] (by decide)⟩

theorem zip_tail_eq_map : ∀ (l : List Nat),
    l.zip l.tail =
      (List.range (l.length - 1)).map (fun i => (l.getD i 0, l.getD (i + 1) 0)) := by
  intro l
  induction l with
  | nil => simp
  | cons a t ih =>
    cases t with
    | nil => simp
    | cons b t2 =>
      rw [List.tail_cons, List.zip_cons_cons]
      have ih2 : (b :: t2).zip t2 =
          (List.range ((b :: t2).length - 1)).map
            (fun i => ((b :: t2).getD i 0, (b :: t2).getD (i + 1) 0)) := ih
      rw [ih2]
      rw [show (a :: b :: t2).length - 1 = t2.length + 1 from by simp]
      rw [show (b :: t2).length - 1 = t2.length from by simp]
      rw [List.range_succ_eq_map, List.map_cons, List.map_map]
      have hhead : ((a :: b :: t2).getD 0 0, (a :: b :: t2).getD (0 + 1) 0) = (a, b) := rfl
      rw [hhead]
      congr 1

theorem take_one_drop (l : List Nat) (i : Nat) (h : i < l.length) :
    (l.drop i).take 1 = [l.getD i 0] := by
  have hg : l.getD i 0 = l[i] := List.getD_eq_getElem l 0 h
  rw [List.drop_eq_getElem_cons h, hg]
  rfl

theorem ngramPairs_two (s e : Nat) (ids : List Nat) :
    ngramPairs 2 s e ids =
      (bigramPairs s e ids).map (fun q => (([q.1] : List Nat), q.2)) := by
  unfold ngramPairs bigramPairs ngramWrapped
  simp only []
  have htok : List.replicate (2 - 1) s ++ ids ++ [e] = [s] ++ ids ++ [e] := rfl
  rw [htok]
  have hlen : ([s] ++ ids ++ [e]).length - 2 + 1 = ([s] ++ ids ++ [e]).length - 1 := by
    simp
  rw [hlen, zip_tail_eq_map, List.map_map]
  apply List.map_congr_left
  intro i hi
  rw [List.mem_range] at hi
  have hlt : i < ([s] ++ ids ++ [e]).length := by omega
  rw [take_one_drop _ i hlt]
  rfl

theorem bump_singleton (c : Counter Nat) (k : Nat) :
    Counter.bump (c.map (fun p => (([p.1] : List Nat), p.2))) [k] =
      (c.bump k).map (fun p => (([p.1] : List Nat), p.2)) := by
  unfold Counter.bump Counter.keys
  have hmem : (([k] : List Nat) ∈
        (c.map (fun p => (([p.1] : List Nat), p.2))).map Prod.fst) ↔
      k ∈ c.map Prod.fst := by
    rw [List.map_map]
    simp [List.mem_map]
  by_cases h : k ∈ c.map Prod.fst
  · rw [if_pos (hmem.mpr h), if_pos h, List.map_map, List.map_map]
    apply List.map_congr_left
    intro p _
    by_cases hpk : p.1 = k <;> simp [hpk, Function.comp]
  · rw [if_neg (fun hc => h (hmem.mp hc)), if_neg h, List.map_append]
    rfl

theorem nbump_singleton (cb : List (Nat × Counter Nat)) (k1 k2 : Nat) :
    nbump (cb.map (fun p => (([p.1] : List Nat), p.2))) ([k1] : List Nat) k2 =
      (nbump cb k1 k2).map (fun p => (([p.1] : List Nat), p.2)) := by
  unfold nbump
  have hmem : (([k1] : List Nat) ∈
        (cb.map (fun p => (([p.1] : List Nat), p.2))).map Prod.fst) ↔
      k1 ∈ cb.map Prod.fst := by
    rw [List.map_map]
    simp [List.mem_map]
  by_cases h : k1 ∈ cb.map Prod.fst
  · rw [if_pos (hmem.mpr h), if_pos h, List.map_map, List.map_map]
    apply List.map_congr_left
    intro p _
    by_cases hpk : p.1 = k1 <;> simp [hpk, Function.comp]
  · rw [if_neg (fun hc => h (hmem.mp hc)), if_neg h, List.map_append]
    rfl

theorem count_singleton (c : Counter Nat) (k : Nat) :
    Counter.count (c.map (fun p => (([p.1] : List Nat), p.2))) [k] = c.count k := by
  unfold Counter.count
  rw [List.find?_map]
  have hcomp : ((fun p : List Nat × Nat => decide (p.1 = [k])) ∘
      (fun p : Nat × Nat => (([p.1] : List Nat), p.2))) =
      (fun p : Nat × Nat => decide (p.1 = k)) := by
    funext p
    simp
  rw [hcomp]
  cases c.find? (fun p => p.1 = k) <;> simp

theorem foldl_map_rel {α β γ δ : Type} (g : γ → δ) (Φ : α → β)
    (step1 : α → γ → α) (step2 : β → δ → β)
    (hcomm : ∀ a p, step2 (Φ a) (g p) = Φ (step1 a p)) :
    ∀ (l : List γ) (a : α), (l.map g).foldl step2 (Φ a) = Φ (l.foldl step1 a) := by
  intro l
  induction l with
  | nil => intro a; rfl
  | cons p rest ih =>
    intro a
    rw [List.map_cons, List.foldl_cons, List.foldl_cons, hcomm]
    exact ih _

theorem ngramCountLines_two (s e : Nat) :
    ∀ (lines : List (List Nat × List Tok)) (cb : List (Nat × Counter Nat))
      (tb : Counter Nat),
      ngramCountLines 2 s e lines
          (cb.map (fun p => (([p.1] : List Nat), p.2)),
            tb.map (fun p => (([p.1] : List Nat), p.2))) =
        (bigramCountLines s e lines (cb, tb)).map
          (fun acc => (acc.1.map (fun p => (([p.1] : List Nat), p.2)),
            acc.2.map (fun p => (([p.1] : List Nat), p.2)))) := by
  intro lines
  induction lines with
  | nil => intro cb tb; rfl
  | cons line rest ih =>
    intro cb tb
    obtain ⟨ids, strs⟩ := line
    rw [ngramCountLines, bigramCountLines]
    by_cases hids : ids = []
    · rw [if_pos hids, if_pos hids]
      exact ih cb tb
    · rw [if_neg hids, if_neg hids]
      cases hv : validateTokens startTokStr strs with
      | some err => rfl
      | none =>
        have hfold : (ngramPairs 2 s e ids).foldl
            (fun a p => (nbump a.1 p.1 p.2, Counter.bump a.2 p.1))
            (cb.map (fun p => (([p.1] : List Nat), p.2)),
              tb.map (fun p => (([p.1] : List Nat), p.2))) =
            (((bigramPairs s e ids).foldl
                (fun a p => (nbump a.1 p.1 p.2, Counter.bump a.2 p.1)) (cb, tb)).1.map
                  (fun p => (([p.1] : List Nat), p.2)),
              ((bigramPairs s e ids).foldl
                (fun a p => (nbump a.1 p.1 p.2, Counter.bump a.2 p.1)) (cb, tb)).2.map
                  (fun p => (([p.1] : List Nat), p.2))) := by
          rw [ngramPairs_two]
          exact foldl_map_rel (fun q => (([q.1] : List Nat), q.2))
            (fun acc : BigramAcc =>
              (acc.1.map (fun p => (([p.1] : List Nat), p.2)),
                acc.2.map (fun p => (([p.1] : List Nat), p.2))))
            (fun a p => (nbump a.1 p.1 p.2, Counter.bump a.2 p.1))
            (fun a p => (nbump a.1 p.1 p.2, Counter.bump a.2 p.1))
            (fun a p => by
              simp only []
              rw [nbump_singleton, bump_singleton])
            (bigramPairs s e ids) (cb, tb)
        rw [hfold]
        exact ih _ _

theorem intercalate_singleton (x : List Char) : List.intercalate [' '] [x] = x := by
  simp [List.intercalate]

/-- C10: with the same tokenizer sentinels and the same pre-tokenized input
lines, `train_ngram` at order `n = 2` computes exactly the model
`train_bigram` computes: the same context keys (the one-element context
tuple `" ".join` collapses to the plain id string) mapping to the same
successor-probability dictionaries, and the same validation errors when the
input is invalid. -/
theorem trainNgram_two_eq_trainBigram (startId? endId? : Option Nat)
    (lines : List (List Nat × List Tok)) :
    trainNgram 2 startId? endId? lines = trainBigram startId? endId? lines := by
  cases startId? with
  | none => rfl
  | some s =>
    cases endId? with
    | none => rfl
    | some e =>
      have hng : trainNgram 2 (some s) (some e) lines =
          (match ngramCountLines 2 s e lines ([], []) with
            | .error err => .error err
            | .ok acc =>
              .ok (acc.1.map (fun p => (ctxKeyStr p.1,
                p.2.map (fun q =>
                  (natDigits q.1, (q.2 : ℚ) / ((acc.2.count p.1 : ℚ)))))))) := rfl
      have hbg : trainBigram (some s) (some e) lines =
          (match bigramCountLines s e lines ([], []) with
            | .error err => .error err
            | .ok acc =>
              .ok (acc.1.map (fun p => (natDigits p.1,
                p.2.map (fun q =>
                  (natDigits q.1, (q.2 : ℚ) / ((acc.2.count p.1 : ℚ)))))))) := rfl
      rw [hng, hbg]
      have hcl := ngramCountLines_two s e lines [] []
      simp only [List.map_nil] at hcl
      rw [hcl]
      cases bigramCountLines s e lines ([], []) with
      | error err => rfl
      | ok acc =>
        simp only [Except.map]
        congr 1
        rw [List.map_map]
        apply List.map_congr_left
        intro p _
        simp only [Function.comp]
        congr 1
        · rw [ctxKeyStr]
          simp only [List.map_cons, List.map_nil]
          exact intercalate_singleton (natDigits p.1)
        · apply List.map_congr_left
          intro q _
          rw [count_singleton]

theorem qSorted_perm (rank : Nat → Nat) (succs : List (Nat × ℚ)) :
    (qSorted rank succs).Perm succs :=
  insSortBy_perm _ succs

theorem qSorted_length (rank : Nat → Nat) (succs : List (Nat × ℚ)) :
    (qSorted rank succs).length = succs.length :=
  (qSorted_perm rank succs).length_eq

theorem qSorted_snd_sum (rank : Nat → Nat) (succs : List (Nat × ℚ)) :
    ((qSorted rank succs).map Prod.snd).sum = (succs.map Prod.snd).sum :=
  ((qSorted_perm rank succs).map Prod.snd).sum_eq

theorem qBase_length (rank : Nat → Nat) (maxValue : Nat) (succs : List (Nat × ℚ)) :
    (qBase rank maxValue succs).length = succs.length := by
  simp only [qBase]
  split <;> rw [List.length_map, qSorted_length]

theorem share_sum (l : List (Nat × ℚ)) (c T : ℚ) :
    (l.map (fun p => p.2 * c / T)).sum = (l.map Prod.snd).sum * c / T := by
  induction l with
  | nil => simp
  | cons a l ih =>
    simp only [List.map_cons, List.sum_cons, ih, add_mul, add_div]

theorem floors_sum_le (xs : List ℚ) (h : ∀ x ∈ xs, 0 ≤ x) :
    ((xs.map (fun x => (Int.floor x).toNat)).sum : ℚ) ≤ xs.sum := by
  induction xs with
  | nil => simp
  | cons x xs ih =>
    simp only [List.map_cons, List.sum_cons, Nat.cast_add]
    have hx : (0 : ℚ) ≤ x := h x (List.mem_cons_self x xs)
    have h0 : (0 : ℤ) ≤ Int.floor x := Int.floor_nonneg.mpr hx
    have h1 : (((Int.floor x).toNat : ℕ) : ℚ) ≤ x := by
      calc (((Int.floor x).toNat : ℕ) : ℚ) = ((Int.floor x : ℤ) : ℚ) := by
            exact_mod_cast Int.toNat_of_nonneg h0
        _ ≤ x := Int.floor_le x
    have h2 := ih (fun y hy => h y (List.mem_cons_of_mem x hy))
    linarith

theorem floors_sum_lb (xs : List ℚ) :
    xs.sum - xs.length ≤ ((xs.map (fun x => (Int.floor x).toNat)).sum : ℚ) := by
  induction xs with
  | nil => simp
  | cons x xs ih =>
    simp only [List.map_cons, List.sum_cons, List.length_cons, Nat.cast_add,
      Nat.cast_one]
    have h1 : x - 1 < ((Int.floor x : ℤ) : ℚ) := Int.sub_one_lt_floor x
    have h2 : ((Int.floor x : ℤ) : ℚ) ≤ (((Int.floor x).toNat : ℕ) : ℚ) := by
      exact_mod_cast Int.self_le_toNat (Int.floor x)
    linarith

theorem sum_map_one_add (g : α → Nat) (l : List α) :
    (l.map (fun a => 1 + g a)).sum = l.length + (l.map g).sum := by
  induction l with
  | nil => rfl
  | cons a l ih =>
    simp only [List.map_cons, List.sum_cons, List.length_cons, ih]
    omega

theorem sum_snd_bump {β : Type} (g : α → Nat) (h : α → β) (r : Nat) (l : List α) :
    ∀ i : Nat,
      (((withIds i l).map
        (fun ti => if ti.2 < r then (h ti.1, g ti.1 + 1) else (h ti.1, g ti.1))).map
          Prod.snd).sum = (l.map g).sum + min (r - i) l.length := by
  induction l with
  | nil => intro i; simp [withIds]
  | cons a l ih =>
    intro i
    simp only [withIds, List.map_cons, List.sum_cons, List.length_cons, ih (i + 1)]
    by_cases hc : i < r
    · rw [if_pos hc]
      simp only []
      omega
    · rw [if_neg hc]
      simp only []
      omega

theorem floor_alloc_bounds (l : List (Nat × ℚ)) (c T : ℚ)
    (hpos : ∀ p ∈ l, 0 < p.2) (hT : (l.map Prod.snd).sum = T) (hTpos : 0 < T)
    (hc : 0 ≤ c) :
    ((l.map (fun p => (Int.floor (p.2 * c / T)).toNat)).sum : ℚ) ≤ c ∧
      c - l.length ≤ ((l.map (fun p => (Int.floor (p.2 * c / T)).toNat)).sum : ℚ) := by
  have hmm : (l.map (fun p => (Int.floor (p.2 * c / T)).toNat))
      = ((l.map (fun p => p.2 * c / T)).map (fun x => (Int.floor x).toNat)) := by
    rw [List.map_map]
    rfl
  have hsum : (l.map (fun p => p.2 * c / T)).sum = c := by
    rw [share_sum, hT, mul_div_cancel_left₀ c (ne_of_gt hTpos)]
  have hnn : ∀ x ∈ l.map (fun p => p.2 * c / T), 0 ≤ x := by
    intro x hx
    rcases List.mem_map.mp hx with ⟨p, hp, rfl⟩
    exact div_nonneg (mul_nonneg (le_of_lt (hpos p hp)) hc) (le_of_lt hTpos)
  constructor
  · rw [hmm]
    calc ((((l.map (fun p => p.2 * c / T)).map (fun x => (Int.floor x).toNat)).sum : ℕ) : ℚ)
          ≤ (l.map (fun p => p.2 * c / T)).sum := floors_sum_le _ hnn
      _ = c := hsum
  · rw [hmm]
    have hlow := floors_sum_lb (l.map (fun p => p.2 * c / T))
    rw [hsum, List.length_map] at hlow
    exact hlow

theorem qAllocated_bounds (rank : Nat → Nat) (maxValue : Nat)
    (succs : List (Nat × ℚ)) (hne : succs ≠ [])
    (hpos : ∀ p ∈ succs, 0 < p.2) :
    qAllocated rank maxValue succs ≤ maxValue ∧
      maxValue ≤ qAllocated rank maxValue succs + succs.length := by
  have hT : 0 < (succs.map Prod.snd).sum := by
    apply List.sum_pos
    · intro x hx
      rcases List.mem_map.mp hx with ⟨p, hp, rfl⟩
      exact hpos p hp
    · simpa using hne
  have hsnd : ∀ p ∈ qSorted rank succs, 0 < p.2 := fun p hp =>
    hpos p ((qSorted_perm rank succs).mem_iff.mp hp)
  by_cases h : maxValue ≤ (qSorted rank succs).length
  · have halloc : qAllocated rank maxValue succs =
        ((qSorted rank succs).map
          (fun p =>
            (Int.floor (p.2 * (maxValue : ℚ) / (succs.map Prod.snd).sum)).toNat)).sum := by
      simp only [qAllocated, qBase, if_pos h, List.map_map]
      rfl
    have hb := floor_alloc_bounds (qSorted rank succs) (maxValue : ℚ)
      ((succs.map Prod.snd).sum) hsnd (qSorted_snd_sum rank succs) hT
      (Nat.cast_nonneg maxValue)
    rw [halloc]
    constructor
    · exact_mod_cast hb.1
    · have h2 : (maxValue : ℚ) ≤
          ((((qSorted rank succs).map
            (fun p =>
              (Int.floor (p.2 * (maxValue : ℚ) / (succs.map Prod.snd).sum)).toNat)).sum : ℕ) : ℚ)
            + (succs.length : ℚ) := by
        have hl := hb.2
        rw [qSorted_length] at hl
        push_cast at hl ⊢
        linarith
      exact_mod_cast h2
  · push_neg at h
    have hlen : succs.length ≤ maxValue := by
      rw [← qSorted_length rank succs]
      exact le_of_lt h
    have hcs : ((maxValue - succs.length : Nat) : ℚ) =
        (maxValue : ℚ) - (succs.length : ℚ) := Nat.cast_sub hlen
    have halloc : qAllocated rank maxValue succs =
        succs.length +
          ((qSorted rank succs).map
            (fun p =>
              (Int.floor (p.2 * ((maxValue - succs.length : Nat) : ℚ) /
                (succs.map Prod.snd).sum)).toNat)).sum := by
      simp only [qAllocated, qBase, if_neg (not_le.mpr h), List.map_map]
      show ((qSorted rank succs).map (fun p => 1 +
        (Int.floor (p.2 * ((maxValue - (qSorted rank succs).length : Nat) : ℚ) /
          (succs.map Prod.snd).sum)).toNat)).sum = _
      rw [sum_map_one_add, qSorted_length]
    have hb := floor_alloc_bounds (qSorted rank succs)
      ((maxValue - succs.length : Nat) : ℚ)
      ((succs.map Prod.snd).sum) hsnd (qSorted_snd_sum rank succs) hT
      (Nat.cast_nonneg _)
    rw [halloc]
    have hb1 := hb.1
    have hb2 := hb.2
    rw [qSorted_length] at hb2
    constructor
    · have hq : ((succs.length : ℕ) : ℚ) +
          ((((qSorted rank succs).map
            (fun p =>
              (Int.floor (p.2 * ((maxValue - succs.length : Nat) : ℚ) /
                (succs.map Prod.snd).sum)).toNat)).sum : ℕ) : ℚ) ≤ (maxValue : ℚ) := by
        linarith
      exact_mod_cast hq
    · have hq : (maxValue : ℚ) ≤
          (((succs.length : ℕ) : ℚ) +
            ((((qSorted rank succs).map
              (fun p =>
                (Int.floor (p.2 * ((maxValue - succs.length : Nat) : ℚ) /
                  (succs.map Prod.snd).sum)).toNat)).sum : ℕ) : ℚ))
            + ((succs.length : ℕ) : ℚ) := by
        linarith
      exact_mod_cast hq

theorem quantizeContext_sum_eq (rank : Nat → Nat) (maxValue : Nat)
    (succs : List (Nat × ℚ)) (hne : succs ≠ [])
    (hpos : ∀ p ∈ succs, 0 < p.2) :
    ((quantizeContext rank maxValue succs).map Prod.snd).sum = maxValue := by
  have hbd := qAllocated_bounds rank maxValue succs hne hpos
  have hQperm : (qByRem rank maxValue succs).Perm (qBase rank maxValue succs) := by
    simp only [qByRem]
    exact insSortBy_perm _ _
  have hQlen : (qByRem rank maxValue succs).length = succs.length :=
    hQperm.length_eq.trans (qBase_length rank maxValue succs)
  have hQsum : ((qByRem rank maxValue succs).map
      (fun t : (Nat × ℚ) × Nat × ℚ => t.2.1)).sum = qAllocated rank maxValue succs := by
    rw [qAllocated]
    exact (hQperm.map (fun t : (Nat × ℚ) × Nat × ℚ => t.2.1)).sum_eq
  have hbump : ((qBumped rank maxValue succs).map Prod.snd).sum
      = qAllocated rank maxValue succs +
        min (maxValue - qAllocated rank maxValue succs) succs.length := by
    have hsb := sum_snd_bump (fun t : (Nat × ℚ) × Nat × ℚ => t.2.1)
      (fun t : (Nat × ℚ) × Nat × ℚ => t.1)
      (maxValue - qAllocated rank maxValue succs) (qByRem rank maxValue succs) 0
    rw [Nat.sub_zero, hQlen, hQsum] at hsb
    exact hsb
  have hfinal : ((quantizeContext rank maxValue succs).map Prod.snd).sum
      = ((qBumped rank maxValue succs).map Prod.snd).sum := by
    have hperm := insSortBy_perm
      (fun a b : (Nat × ℚ) × Nat => lexLe3 (-(a.2 : ℚ), -a.1.2, rank a.1.1)
        (-(b.2 : ℚ), -b.1.2, rank b.1.1))
      (qBumped rank maxValue succs)
    have hs := (hperm.map Prod.snd).sum_eq
    rw [quantizeContext, List.map_map]
    exact hs
  rw [hfinal, hbump]
  rcases hbd with ⟨h1, h2⟩
  omega

/-- **C3.** Modelled from the spec (§4.5): for every context with at least one
observed successor (so the successor list is nonempty and every adjusted
weight, `(rawCount + smoothing_alpha) ^ (1 / temperature)` with
`rawCount ≥ 1` and `smoothing_alpha ≥ 0`, is positive), the quantized
successor weights are non-negative integers summing exactly to
`max_value = 2 ^ bits - 1`. -/
theorem quantizeContext_weight_sum (rank : Nat → Nat) (bits : Nat)
    (succs : List (Nat × ℚ)) (hne : succs ≠ [])
    (hpos : ∀ p ∈ succs, 0 < p.2) :
    ((quantizeContext rank (2 ^ bits - 1) succs).map Prod.snd).sum = 2 ^ bits - 1 :=
  quantizeContext_sum_eq rank (2 ^ bits - 1) succs hne hpos

theorem quantizeContext_weight_sum_witness :
    ([((0 : Nat), (1 : ℚ)), (1, 1)] ≠ [] ∧
        ∀ p ∈ [((0 : Nat), (1 : ℚ)), (1, 1)], 0 < p.2) ∧
      ((quantizeContext (fun t => t) (2 ^ 4 - 1)
          [((0 : Nat), (1 : ℚ)), (1, 1)]).map Prod.snd).sum = 2 ^ 4 - 1 :=
  ⟨⟨List.cons_ne_nil _ _, by
      intro p hp
      rcases List.mem_cons.mp hp with h | h
      · rw [h]; exact zero_lt_one
      · rw [List.mem_singleton.mp h]; exact zero_lt_one⟩,
    quantizeContext_weight_sum (fun t => t) 4 [((0 : Nat), (1 : ℚ)), (1, 1)]
      (List.cons_ne_nil _ _)
      (by
        intro p hp
        rcases List.mem_cons.mp hp with h | h
        · rw [h]; exact zero_lt_one
        · rw [List.mem_singleton.mp h]; exact zero_lt_one)⟩

end ReadableHash
